import Mathlib

/-!
# xbootsplash — verification of the frame codec and playback engine

Shallow embedding of the frame compression codec and playback logic of the
xbootsplash repository (`generate_splash.c`, `splash_anim_delta.c`,
`splash_anim_drm.c`).  Pixels and bytes are modelled as `Nat` with the C
integer semantics made explicit; byte streams and pixel buffers are `List Nat`.
Decoders that in C index into a caller-supplied byte array are embedded as
`Option`-returning functions: any read outside the declared input length
yields `none`, so totality theorems state that the C code's bounds guards
make every access in-bounds.
-/

namespace XBootsplash

set_option autoImplicit false

/-! ## Byte-level helpers

The C sources split 16-bit values into bytes with `v & 0xFF` and
`(v >> 8) & 0xFF`, and reassemble them with `b0 | (b1 << 8)`. -/

/-- `v & 0xFF`: low byte of a 16-bit value. -/
def lo8 (v : Nat) : Nat := v &&& 0xFF

/-- `(v >> 8) & 0xFF`: high byte of a 16-bit value. -/
def hi8 (v : Nat) : Nat := (v >>> 8) &&& 0xFF

/-- `b0 | (b1 << 8)`: 16-bit value from two little-endian bytes. -/
def le16 (b0 b1 : Nat) : Nat := b0 ||| (b1 <<< 8)

/-- The two bytes a 16-bit value is serialized to, least-significant first. -/
def bytes16 (v : Nat) : List Nat := [lo8 v, hi8 v]

theorem lo8_eq_mod (v : Nat) : lo8 v = v % 256 := by
  have h := Nat.and_pow_two_sub_one_eq_mod v 8
  norm_num at h
  simpa [lo8] using h

theorem hi8_eq (v : Nat) : hi8 v = v / 256 % 256 := by
  have h := Nat.and_pow_two_sub_one_eq_mod (v >>> 8) 8
  norm_num at h
  rw [hi8, h, Nat.shiftRight_eq_div_pow]

theorem lo8_lt (v : Nat) : lo8 v < 256 := by
  rw [lo8_eq_mod]; exact Nat.mod_lt _ (by norm_num)

theorem hi8_lt (v : Nat) : hi8 v < 256 := by
  rw [hi8_eq]; exact Nat.mod_lt _ (by norm_num)

theorem le16_eq (b0 b1 : Nat) (h : b0 < 256) : le16 b0 b1 = b0 + 256 * b1 := by
  have h2 : b1 <<< 8 = 2 ^ 8 * b1 := by
    rw [Nat.shiftLeft_eq]; ring
  have h3 := Nat.mul_add_lt_is_or (i := 8) (b := b0) (by norm_num [h]) b1
  rw [le16, h2, Nat.lor_comm, ← h3]
  norm_num
  omega

/-- Reassembling the two serialized bytes recovers any 16-bit value. -/
theorem le16_bytes (v : Nat) (h : v < 65536) : le16 (lo8 v) (hi8 v) = v := by
  rw [le16_eq _ _ (lo8_lt v), lo8_eq_mod, hi8_eq]
  have : v / 256 < 256 := by omega
  rw [Nat.mod_eq_of_lt this]
  omega

/-! ## Delta RLE XOR encoder (`compress_rle_xor`, generate_splash.c)

The encoder walks the XOR deltas `curr[i] ^ prev[i]`.  It alternates a run of
zero deltas (capped at 128, emitted as one token byte `0x80 | (zeros-1)`) with
a run of nonzero deltas (capped at 127, emitted as a count byte followed by
the 16-bit XOR values, LSB first), and terminates the unit with `0x00`. -/

/-- C loop `while (i + zeros < count && zeros < 128) { if (d != 0) break; zeros++ }`
over the remaining deltas. -/
def zeroRun : List Nat → Nat → Nat
  | [], _ => 0
  | _, 0 => 0
  | d :: ds, cap + 1 => if d ≠ 0 then 0 else zeroRun ds cap + 1

/-- C loop `while (i + nonzeros < count && nonzeros < 127) { if (d == 0) break; nonzeros++ }`. -/
def nonzeroRun : List Nat → Nat → Nat
  | [], _ => 0
  | _, 0 => 0
  | d :: ds, cap + 1 => if d = 0 then 0 else nonzeroRun ds cap + 1

theorem zeroRun_le_length (ds : List Nat) (cap : Nat) : zeroRun ds cap ≤ ds.length := by
  induction ds generalizing cap with
  | nil => simp [zeroRun]
  | cons d ds ih =>
    cases cap with
    | zero => simp [zeroRun]
    | succ c =>
      simp only [zeroRun]
      split
      · omega
      · have := ih c; simpa using Nat.succ_le_succ this

theorem zeroRun_le_cap (ds : List Nat) (cap : Nat) : zeroRun ds cap ≤ cap := by
  induction ds generalizing cap with
  | nil => simp [zeroRun]
  | cons d ds ih =>
    cases cap with
    | zero => simp [zeroRun]
    | succ c =>
      simp only [zeroRun]
      split
      · omega
      · have := ih c; omega

theorem nonzeroRun_le_length (ds : List Nat) (cap : Nat) : nonzeroRun ds cap ≤ ds.length := by
  induction ds generalizing cap with
  | nil => simp [nonzeroRun]
  | cons d ds ih =>
    cases cap with
    | zero => simp [nonzeroRun]
    | succ c =>
      simp only [nonzeroRun]
      split
      · omega
      · have := ih c; simpa using Nat.succ_le_succ this

theorem nonzeroRun_le_cap (ds : List Nat) (cap : Nat) : nonzeroRun ds cap ≤ cap := by
  induction ds generalizing cap with
  | nil => simp [nonzeroRun]
  | cons d ds ih =>
    cases cap with
    | zero => simp [nonzeroRun]
    | succ c =>
      simp only [nonzeroRun]
      split
      · omega
      · have := ih c; omega

theorem zeroRun_pos {d : Nat} (ds : List Nat) {cap : Nat} (hd : d = 0) (hc : 0 < cap) :
    0 < zeroRun (d :: ds) cap := by
  cases cap with
  | zero => omega
  | succ c => simp [zeroRun, hd]

theorem nonzeroRun_pos {d : Nat} (ds : List Nat) {cap : Nat} (hd : d ≠ 0) (hc : 0 < cap) :
    0 < nonzeroRun (d :: ds) cap := by
  cases cap with
  | zero => omega
  | succ c => simp [nonzeroRun, hd]

/-- All deltas inside the zero run are zero. -/
theorem zeroRun_all_zero (ds : List Nat) (cap : Nat) :
    ∀ d ∈ ds.take (zeroRun ds cap), d = 0 := by
  induction ds generalizing cap with
  | nil => simp
  | cons d ds ih =>
    cases cap with
    | zero => simp [zeroRun]
    | succ c =>
      simp only [zeroRun]
      split
      · simp
      · rename_i hd
        intro x hx
        rw [List.take_succ_cons] at hx
        rcases List.mem_cons.mp hx with h | h
        · omega
        · exact ih c x h

/-- All deltas inside the nonzero run are nonzero. -/
theorem nonzeroRun_all_nonzero (ds : List Nat) (cap : Nat) :
    ∀ d ∈ ds.take (nonzeroRun ds cap), d ≠ 0 := by
  induction ds generalizing cap with
  | nil => simp
  | cons d ds ih =>
    cases cap with
    | zero => simp [nonzeroRun]
    | succ c =>
      simp only [nonzeroRun]
      split
      · simp
      · rename_i hd
        intro x hx
        rw [List.take_succ_cons] at hx
        rcases List.mem_cons.mp hx with h | h
        · omega
        · exact ih c x h

/-- Processing one round of the encoder loop consumes at least one delta. -/
theorem runs_progress (ds : List Nat) (h : ds ≠ []) :
    0 < zeroRun ds 128 + nonzeroRun (ds.drop (zeroRun ds 128)) 127 := by
  obtain ⟨d, tl, rfl⟩ := List.exists_cons_of_ne_nil h
  rcases Nat.eq_zero_or_pos (zeroRun (d :: tl) 128) with hz | hz
  · have hd : d ≠ 0 := by
      intro h0
      have := zeroRun_pos tl h0 (show (0:Nat) < 128 by norm_num)
      omega
    rw [hz]
    simpa using nonzeroRun_pos tl hd (show (0:Nat) < 127 by norm_num)
  · omega

/-- Body of `compress_rle_xor`, on the list of XOR deltas.  Each level emits an
optional skip token, an optional literal token, and recurses; the final `0x00`
terminator is the base case. -/
def rleXorBody (ds : List Nat) : List Nat :=
  if hds : ds = [] then [0x00]
  else
    let z := zeroRun ds 128
    let skipTok : List Nat := if 0 < z then [0x80 ||| (z - 1)] else []
    let ds1 := ds.drop z
    let n := nonzeroRun ds1 127
    let litTok : List Nat := if 0 < n then n :: (ds1.take n).flatMap bytes16 else []
    skipTok ++ (litTok ++ rleXorBody (ds1.drop n))
termination_by ds.length
decreasing_by
  simp only [List.length_drop]
  have hp := runs_progress ds hds
  have h1 := zeroRun_le_length ds 128
  have h2 := nonzeroRun_le_length (ds.drop (zeroRun ds 128)) 127
  have h3 : 0 < ds.length := List.length_pos.mpr hds
  simp only [List.length_drop] at h2
  omega

/-- `compress_rle_xor` from generate_splash.c: RLE over the XOR deltas of two
equal-length frames (`count = curr.length`). -/
def compress_rle_xor (curr prev : List Nat) : List Nat :=
  rleXorBody (List.zipWith (fun c p => c ^^^ p) curr prev)

/-! ## Delta RLE XOR decoder (`apply_delta_rle_xor`, splash_anim_delta.c)

The pixel buffer is the `buf` list and `max_pixels = FRAME_W * FRAME_H` is its
length.  Every input read is through `delta[pos]?`, so an access past the
declared length would produce `none`; the C code's guards are reproduced
exactly, and the safety theorem shows they rule `none` out. -/

/-- Literal loop of `apply_delta_rle_xor`:
`for (i = 0; i < count && pixel_idx < max_pixels; i++) { if (pos + 1 >= delta_size) break;
 xor_val = delta[pos] | (delta[pos+1] << 8); pos += 2; frame_buffer[pixel_idx++] ^= xor_val; }`.
Returns the updated `(pos, buf, pixel_idx)`. -/
def rleXorLits (delta : List Nat) : Nat → Nat → List Nat → Nat →
    Option (Nat × List Nat × Nat)
  | 0, pos, buf, pixelIdx => some (pos, buf, pixelIdx)
  | c + 1, pos, buf, pixelIdx =>
    if pixelIdx < buf.length then
      if pos + 1 ≥ delta.length then some (pos, buf, pixelIdx)
      else
        match delta[pos]?, delta[pos + 1]? with
        | some b0, some b1 =>
          rleXorLits delta c (pos + 2)
            (buf.set pixelIdx (buf.getD pixelIdx 0 ^^^ le16 b0 b1)) (pixelIdx + 1)
        | _, _ => none
    else some (pos, buf, pixelIdx)

theorem rleXorLits_le {delta : List Nat} :
    ∀ {c pos buf pixelIdx pos' buf' pixelIdx'},
      rleXorLits delta c pos buf pixelIdx = some (pos', buf', pixelIdx') →
      pos ≤ pos' ∧ buf'.length = buf.length := by
  intro c
  induction c with
  | zero =>
    intro pos buf pixelIdx pos' buf' pixelIdx' h
    simp only [rleXorLits, Option.some.injEq, Prod.mk.injEq] at h
    obtain ⟨rfl, rfl, rfl⟩ := h
    exact ⟨le_refl _, rfl⟩
  | succ c ih =>
    intro pos buf pixelIdx pos' buf' pixelIdx' h
    simp only [rleXorLits] at h
    split at h
    · split at h
      · simp only [Option.some.injEq, Prod.mk.injEq] at h
        obtain ⟨rfl, rfl, rfl⟩ := h
        exact ⟨le_refl _, rfl⟩
      · split at h
        · have := ih h
          simp only [List.length_set] at this
          omega
        · exact absurd h (by simp)
    · simp only [Option.some.injEq, Prod.mk.injEq] at h
      obtain ⟨rfl, rfl, rfl⟩ := h
      exact ⟨le_refl _, rfl⟩

theorem rleXorLits_isSome (delta : List Nat) :
    ∀ (c pos : Nat) (buf : List Nat) (pixelIdx : Nat),
      (rleXorLits delta c pos buf pixelIdx).isSome := by
  intro c
  induction c with
  | zero => intro pos buf pixelIdx; simp [rleXorLits]
  | succ c ih =>
    intro pos buf pixelIdx
    simp only [rleXorLits]
    split
    · split
      · simp
      · rename_i hlt hpos
        have h0 : pos < delta.length := by omega
        have h1 : pos + 1 < delta.length := by omega
        rw [List.getElem?_eq_getElem h0, List.getElem?_eq_getElem h1]
        exact ih _ _ _
    · simp

/-- Main loop of `apply_delta_rle_xor`: reads a command byte; `0x00` ends the
unit, a high-bit command skips `(cmd & 0x7F) + 1` pixels (clamped to
`max_pixels`), a low command decodes that many literal XOR values. -/
def rleXorLoop (delta : List Nat) (pos : Nat) (buf : List Nat) (pixelIdx : Nat) :
    Option (List Nat) :=
  if hp : pos < delta.length then
    match delta[pos]? with
    | none => none
    | some cmd =>
      if cmd = 0 then some buf
      else if cmd &&& 0x80 ≠ 0 then
        let skip := (cmd &&& 0x7F) + 1
        let p1 := pixelIdx + skip
        rleXorLoop delta (pos + 1) buf (if p1 > buf.length then buf.length else p1)
      else
        match hl : rleXorLits delta cmd (pos + 1) buf pixelIdx with
        | none => none
        | some (pos', buf', pixelIdx') => rleXorLoop delta pos' buf' pixelIdx'
  else some buf
termination_by delta.length - pos
decreasing_by
  · omega
  · have := (rleXorLits_le hl).1
    omega

/-- `apply_delta_rle_xor` from splash_anim_delta.c. -/
def apply_delta_rle_xor (delta : List Nat) (buf : List Nat) : Option (List Nat) :=
  rleXorLoop delta 0 buf 0

/-! ## Round-trip proof for the delta RLE XOR pair -/

/-- Specification of what a decoded XOR unit does to the pixel buffer:
XOR the deltas `ds` into consecutive positions starting at `i`. -/
def xorPatch (buf : List Nat) (i : Nat) : List Nat → List Nat
  | [] => buf
  | d :: ds => xorPatch (buf.set i (buf.getD i 0 ^^^ d)) (i + 1) ds

theorem set_getD_self (l : List Nat) (i : Nat) : l.set i (l.getD i 0) = l := by
  induction l generalizing i with
  | nil => simp
  | cons a l ih =>
    cases i with
    | zero => simp
    | succ j =>
      simp only [List.set_cons_succ, List.getD_cons_succ]
      rw [ih j]

theorem xorPatch_length (ds : List Nat) :
    ∀ (buf : List Nat) (i : Nat), (xorPatch buf i ds).length = buf.length := by
  induction ds with
  | nil => intro buf i; simp [xorPatch]
  | cons d ds ih => intro buf i; simp [xorPatch, ih]

theorem xorPatch_zeroes (ds : List Nat) (hz : ∀ d ∈ ds, d = 0) :
    ∀ (buf : List Nat) (i : Nat), xorPatch buf i ds = buf := by
  induction ds with
  | nil => intro buf i; simp [xorPatch]
  | cons d ds ih =>
    intro buf i
    have hd : d = 0 := hz d (by simp)
    rw [xorPatch, hd]
    simp only [Nat.xor_zero, set_getD_self]
    exact ih (fun x hx => hz x (by simp [hx])) buf (i + 1)

theorem xorPatch_append (as bs : List Nat) :
    ∀ (buf : List Nat) (i : Nat),
      xorPatch buf i (as ++ bs) = xorPatch (xorPatch buf i as) (i + as.length) bs := by
  induction as with
  | nil => intro buf i; simp [xorPatch]
  | cons a as ih =>
    intro buf i
    simp only [List.cons_append, xorPatch, List.length_cons, List.append_eq]
    rw [ih]
    congr 1
    omega

theorem xorPatch_cons_shift (ds : List Nat) :
    ∀ (a : Nat) (l : List Nat) (i : Nat),
      xorPatch (a :: l) (i + 1) ds = a :: xorPatch l i ds := by
  induction ds with
  | nil => intro a l i; simp [xorPatch]
  | cons d ds ih =>
    intro a l i
    simp only [xorPatch, List.set_cons_succ, List.getD_cons_succ]
    exact ih a _ (i + 1)

/-- XOR-patching a buffer with the deltas against itself recovers the target frame. -/
theorem xorPatch_zip (curr : List Nat) :
    ∀ (prev : List Nat), prev.length = curr.length →
      xorPatch prev 0 (List.zipWith (fun c p => c ^^^ p) curr prev) = curr := by
  induction curr with
  | nil =>
    intro prev h
    have : prev = [] := List.eq_nil_of_length_eq_zero h
    simp [this, xorPatch]
  | cons c cs ih =>
    intro prev h
    cases prev with
    | nil => simp at h
    | cons p ps =>
      simp only [List.zipWith_cons_cons, xorPatch, List.set_cons_zero,
        List.getD_cons_zero]
      have hx : p ^^^ (c ^^^ p) = c := by
        rw [Nat.xor_comm c p, ← Nat.xor_assoc, Nat.xor_self, Nat.zero_xor]
      rw [hx, Nat.zero_add, xorPatch_cons_shift]
      simp only [List.length_cons] at h
      rw [ih ps (by omega)]

/-- A positive zero-run can only start at a zero delta. -/
theorem zeroRun_cons_pos {d : Nat} {tl : List Nat} {cap : Nat}
    (h : 0 < zeroRun (d :: tl) cap) : d = 0 := by
  cases cap with
  | zero => simp [zeroRun] at h
  | succ c =>
    by_contra hd
    simp [zeroRun, hd] at h

/-- A nonzero-run starting at a zero delta is empty. -/
theorem nonzeroRun_cons_zero {d : Nat} (tl : List Nat) (cap : Nat) (hd : d = 0) :
    nonzeroRun (d :: tl) cap = 0 := by
  cases cap with
  | zero => rfl
  | succ c => simp [nonzeroRun, hd]

/-- Token-byte arithmetic for the skip token `0x80 | a` with `a < 128`. -/
theorem skip_token_facts : ∀ a < 128,
    (0x80 ||| a) = 128 + a ∧ ((128 + a) &&& 0x80 ≠ 0) ∧ ((128 + a) &&& 0x7F = a) := by
  decide

/-- A literal count byte `a < 128` has the high bit clear. -/
theorem lit_token_facts : ∀ a < 128, a &&& 0x80 = 0 := by
  decide

theorem flatMap_bytes16_length (vs : List Nat) :
    (vs.flatMap bytes16).length = 2 * vs.length := by
  induction vs with
  | nil => simp
  | cons v vs ih => simp [bytes16, ih]; omega

theorem mem_zipWith_xor_lt {curr prev : List Nat}
    (hc : ∀ x ∈ curr, x < 65536) (hp : ∀ x ∈ prev, x < 65536) :
    ∀ d ∈ List.zipWith (fun c p => c ^^^ p) curr prev, d < 65536 := by
  induction curr generalizing prev with
  | nil => simp
  | cons c cs ih =>
    cases prev with
    | nil => simp
    | cons p ps =>
      intro d hd
      simp only [List.zipWith_cons_cons, List.mem_cons] at hd
      rcases hd with h | h
      · subst h
        have h1 : c < 2 ^ 16 := by have := hc c (by simp); norm_num; omega
        have h2 : p < 2 ^ 16 := by have := hp p (by simp); norm_num; omega
        have := Nat.xor_lt_two_pow h1 h2
        norm_num at this
        omega
      · exact ih (fun x hx => hc x (by simp [hx])) (fun x hx => hp x (by simp [hx])) d h

/-- Shape of the encoder output when the zero run is empty. -/
theorem rleXorBody_lit (ds : List Nat) (hne : ds ≠ []) (hz : zeroRun ds 128 = 0) :
    rleXorBody ds =
      nonzeroRun ds 127 :: ((ds.take (nonzeroRun ds 127)).flatMap bytes16 ++
        rleXorBody (ds.drop (nonzeroRun ds 127))) := by
  have hn : 0 < nonzeroRun ds 127 := by
    have := runs_progress ds hne
    rw [hz] at this
    simpa using this
  rw [rleXorBody]
  rw [dif_neg hne]
  simp only [hz, lt_irrefl, if_false, List.drop_zero, if_pos hn]
  simp

/-- Shape of the encoder output when the zero run is nonempty: one skip token,
then the encoding of the rest.  (When the 128-cap is hit, the nonzero run at
this level is empty and the recursion starts over on the remaining deltas.) -/
theorem rleXorBody_skip (ds : List Nat) (hz : 0 < zeroRun ds 128) :
    rleXorBody ds =
      (0x80 ||| (zeroRun ds 128 - 1)) :: rleXorBody (ds.drop (zeroRun ds 128)) := by
  have hne : ds ≠ [] := by
    intro h
    rw [h] at hz
    simp [zeroRun] at hz
  set z := zeroRun ds 128 with hzdef
  set ds1 := ds.drop z with hds1
  rw [rleXorBody, dif_neg hne]
  simp only [← hzdef, ← hds1, if_pos hz]
  rcases eq_or_ne ds1 [] with h1 | h1
  · -- nothing after the zero run
    rw [h1]
    simp [show nonzeroRun ([] : List Nat) 127 = 0 from rfl]
  · obtain ⟨d, tl, hcons⟩ := List.exists_cons_of_ne_nil h1
    rcases Nat.eq_zero_or_pos (zeroRun ds1 128) with hz1 | hz1
    · -- the zero run genuinely ended: the next delta is nonzero
      rw [rleXorBody_lit ds1 h1 hz1]
      have hn : 0 < nonzeroRun ds1 127 := by
        have := runs_progress ds1 h1
        rw [hz1] at this
        simpa using this
      simp [if_pos hn]
    · -- the 128-cap was hit: the next delta is again zero, no literal token here
      have hd0 : d = 0 := by
        rw [hcons] at hz1
        exact zeroRun_cons_pos hz1
      have hn : nonzeroRun ds1 127 = 0 := by
        rw [hcons]
        exact nonzeroRun_cons_zero tl 127 hd0
      simp [hn]

theorem rleXorBody_nil : rleXorBody [] = [0x00] := by
  rw [rleXorBody]
  simp

/-- The literal loop, fed exactly the serialized bytes of `vs`, XOR-patches
`vs` into the buffer and stops right after the last byte. -/
theorem rleXorLits_decodes (stream : List Nat) :
    ∀ (vs rest : List Nat) (pos : Nat) (buf : List Nat) (i : Nat),
      stream.drop pos = vs.flatMap bytes16 ++ rest →
      i + vs.length ≤ buf.length →
      (∀ v ∈ vs, v < 65536) →
      rleXorLits stream vs.length pos buf i =
        some (pos + 2 * vs.length, xorPatch buf i vs, i + vs.length) := by
  intro vs
  induction vs with
  | nil =>
    intro rest pos buf i hdrop hlen hb
    simp [rleXorLits, xorPatch]
  | cons v vs ih =>
    intro rest pos buf i hdrop hlen hb
    have hi : i < buf.length := by
      simp only [List.length_cons] at hlen; omega
    have hdrop' : stream.drop pos = lo8 v :: hi8 v :: (vs.flatMap bytes16 ++ rest) := by
      simpa [bytes16] using hdrop
    have hlen2 : pos + 1 < stream.length := by
      have h := congrArg List.length hdrop'
      simp only [List.length_drop, List.length_cons] at h
      omega
    have hget0 : stream[pos]? = some (lo8 v) := by
      have h := List.getElem?_drop stream pos 0
      rw [hdrop'] at h
      simpa using h.symm
    have hget1 : stream[pos + 1]? = some (hi8 v) := by
      have h := List.getElem?_drop stream pos 1
      rw [hdrop'] at h
      simpa using h.symm
    have hv : le16 (lo8 v) (hi8 v) = v := le16_bytes v (hb v (by simp))
    show rleXorLits stream (vs.length + 1) pos buf i = _
    rw [rleXorLits]
    simp only [if_pos hi, if_neg (show ¬ pos + 1 ≥ stream.length by omega), hget0, hget1, hv]
    have hdrop2 : stream.drop (pos + 2) = vs.flatMap bytes16 ++ rest := by
      have h := List.drop_drop 2 pos stream
      rw [hdrop'] at h
      simpa using h.symm
    rw [ih rest (pos + 2) _ (i + 1) hdrop2
      (by simp only [List.length_set]; simp only [List.length_cons] at hlen; omega)
      (fun x hx => hb x (by simp [hx]))]
    simp only [Option.some.injEq, Prod.mk.injEq, List.length_cons]
    refine ⟨by omega, ?_, by omega⟩
    rw [xorPatch]

/-- The decoder, run on `rleXorBody ds` appearing at position `pos` of the
input, XOR-patches `ds` into the buffer starting at pixel `i`. -/
theorem rleXorLoop_decodes :
    ∀ (N : Nat) (ds : List Nat), ds.length ≤ N →
      ∀ (stream : List Nat) (pos : Nat) (buf : List Nat) (i : Nat),
        stream.drop pos = rleXorBody ds →
        i + ds.length ≤ buf.length →
        (∀ d ∈ ds, d < 65536) →
        rleXorLoop stream pos buf i = some (xorPatch buf i ds) := by
  intro N
  induction N with
  | zero =>
    intro ds hN stream pos buf i hdrop hlen hb
    have hds : ds = [] := List.eq_nil_of_length_eq_zero (by omega)
    subst hds
    have hdrop' : stream.drop pos = [0x00] := by
      rw [hdrop, rleXorBody_nil]
    have hpos : pos < stream.length := by
      have h := congrArg List.length hdrop'
      simp only [List.length_drop, List.length_cons, List.length_nil] at h
      omega
    have hget : stream[pos]? = some 0 := by
      have h := List.getElem?_drop stream pos 0
      rw [hdrop'] at h
      simpa using h.symm
    rw [rleXorLoop, dif_pos hpos, hget]
    simp [xorPatch]
  | succ N ih =>
    intro ds hN stream pos buf i hdrop hlen hb
    rcases eq_or_ne ds [] with hds | hds
    · -- terminator
      subst hds
      have hdrop' : stream.drop pos = [0x00] := by rw [hdrop, rleXorBody_nil]
      have hpos : pos < stream.length := by
        have h := congrArg List.length hdrop'
        simp only [List.length_drop, List.length_cons, List.length_nil] at h
        omega
      have hget : stream[pos]? = some 0 := by
        have h := List.getElem?_drop stream pos 0
        rw [hdrop'] at h
        simpa using h.symm
      rw [rleXorLoop, dif_pos hpos, hget]
      simp [xorPatch]
    · rcases Nat.eq_zero_or_pos (zeroRun ds 128) with hz | hz
      · -- literal token first
        set n := nonzeroRun ds 127 with hn
        have hnpos : 0 < n := by
          have := runs_progress ds hds
          rw [hz] at this
          simpa [← hn] using this
        have hncap : n ≤ 127 := nonzeroRun_le_cap ds 127
        have hnlen : n ≤ ds.length := nonzeroRun_le_length ds 127
        have hshape := rleXorBody_lit ds hds hz
        rw [← hn] at hshape
        rw [hshape] at hdrop
        have hpos : pos < stream.length := by
          have h := congrArg List.length hdrop
          simp only [List.length_drop, List.length_cons] at h
          omega
        have hget : stream[pos]? = some n := by
          have h := List.getElem?_drop stream pos 0
          rw [hdrop] at h
          simpa using h.symm
        rw [rleXorLoop, dif_pos hpos]
        simp only [hget, if_neg (show ¬ n = 0 by omega),
          if_neg (not_not_intro (lit_token_facts n (by omega)))]
        have hdrop1 : stream.drop (pos + 1) =
            (ds.take n).flatMap bytes16 ++ rleXorBody (ds.drop n) := by
          have h := List.drop_drop 1 pos stream
          rw [hdrop] at h
          simpa using h.symm
        have hvslen : (ds.take n).length = n := by
          simp [List.length_take]; omega
        have hlits := rleXorLits_decodes stream (ds.take n) (rleXorBody (ds.drop n))
          (pos + 1) buf i hdrop1
          (by rw [hvslen]; omega)
          (fun x hx => hb x (List.mem_of_mem_take hx))
        rw [hvslen] at hlits
        have hrec := ih (ds.drop n) (by simp [List.length_drop]; omega) stream
          (pos + 1 + 2 * n) (xorPatch buf i (ds.take n)) (i + n)
          (by
            have h := List.drop_drop (2 * n) (pos + 1) stream
            rw [hdrop1] at h
            rw [← h, List.drop_append_of_le_length]
            · rw [List.drop_eq_nil_of_le, List.nil_append]
              rw [flatMap_bytes16_length, hvslen]
            · rw [flatMap_bytes16_length, hvslen])
          (by rw [xorPatch_length]; simp [List.length_drop]; omega)
          (fun x hx => hb x (List.mem_of_mem_drop hx))
        split
        · rename_i heq
          rw [hlits] at heq
          simp at heq
        · rename_i pos' buf' pixelIdx' heq
          rw [hlits] at heq
          simp only [Option.some.injEq, Prod.mk.injEq] at heq
          obtain ⟨rfl, rfl, rfl⟩ := heq
          rw [hrec]
          congr 1
          conv_rhs => rw [← List.take_append_drop n ds]
          rw [xorPatch_append, hvslen]
      · -- skip token first
        set z := zeroRun ds 128 with hzd
        have hzcap : z ≤ 128 := zeroRun_le_cap ds 128
        have hzlen : z ≤ ds.length := zeroRun_le_length ds 128
        have hshape := rleXorBody_skip ds hz
        rw [← hzd] at hshape
        rw [hshape] at hdrop
        have hpos : pos < stream.length := by
          have h := congrArg List.length hdrop
          simp only [List.length_drop, List.length_cons] at h
          omega
        obtain ⟨hor, hand, hmask⟩ := skip_token_facts (z - 1) (by omega)
        have hget : stream[pos]? = some (128 + (z - 1)) := by
          have h := List.getElem?_drop stream pos 0
          rw [hdrop] at h
          rw [hor] at h
          simpa using h.symm
        rw [rleXorLoop, dif_pos hpos]
        have hclamp : ¬ (i + ((128 + (z - 1)) &&& 0x7F) + 1 > buf.length) := by
          rw [hmask]; omega
        simp only [hget, if_neg (show ¬ 128 + (z - 1) = 0 by omega), if_pos hand, hmask,
          if_neg (show ¬ (i + (z - 1 + 1) > buf.length) by omega)]
        have hdrop1 : stream.drop (pos + 1) = rleXorBody (ds.drop z) := by
          have h := List.drop_drop 1 pos stream
          rw [hdrop] at h
          simpa using h.symm
        have hrec := ih (ds.drop z) (by simp [List.length_drop]; omega) stream
          (pos + 1) buf (i + (z - 1 + 1)) hdrop1
          (by simp [List.length_drop]; omega)
          (fun x hx => hb x (List.mem_of_mem_drop hx))
        rw [hrec]
        congr 1
        conv_rhs => rw [← List.take_append_drop z ds]
        rw [xorPatch_append]
        rw [xorPatch_zeroes (ds.take z) (zeroRun_all_zero ds 128)]
        congr 1
        simp [List.length_take]
        omega

/-- Decoding `compress_rle_xor curr prev` into a buffer holding `prev`
reproduces `curr`. -/
theorem rle_xor_roundtrip (curr prev : List Nat) (hl : prev.length = curr.length)
    (hc : ∀ x ∈ curr, x < 65536) (hp : ∀ x ∈ prev, x < 65536) :
    apply_delta_rle_xor (compress_rle_xor curr prev) prev = some curr := by
  unfold apply_delta_rle_xor compress_rle_xor
  have hzl : (List.zipWith (fun c p => c ^^^ p) curr prev).length = curr.length := by
    rw [List.length_zipWith]; omega
  rw [rleXorLoop_decodes curr.length _ (by omega) _ 0 prev 0 (by simp)
    (by omega) (mem_zipWith_xor_lt hc hp)]
  rw [xorPatch_zip curr prev hl]

/-- Legal delta RLE XOR units: a sequence of skip tokens (run length 1..128)
and literal tokens (count byte 1..127 followed by that many 16-bit values),
terminated by a zero byte. -/
inductive LegalUnit : List Nat → Prop where
  | done : LegalUnit [0x00]
  | skip (n : Nat) (rest : List Nat) (h1 : 1 ≤ n) (h2 : n ≤ 128)
      (hrest : LegalUnit rest) : LegalUnit ((0x80 ||| (n - 1)) :: rest)
  | lit (vs rest : List Nat) (h1 : 1 ≤ vs.length) (h2 : vs.length ≤ 127)
      (hrest : LegalUnit rest) : LegalUnit (vs.length :: (vs.flatMap bytes16 ++ rest))

/-- The delta RLE XOR encoder only emits legal units. -/
theorem legal_rleXorBody : ∀ (N : Nat) (ds : List Nat), ds.length ≤ N →
    LegalUnit (rleXorBody ds) := by
  intro N
  induction N with
  | zero =>
    intro ds h
    have hds : ds = [] := List.eq_nil_of_length_eq_zero (by omega)
    subst hds
    rw [rleXorBody_nil]
    exact LegalUnit.done
  | succ N ih =>
    intro ds hN
    rcases eq_or_ne ds [] with hds | hds
    · subst hds
      rw [rleXorBody_nil]
      exact LegalUnit.done
    · rcases Nat.eq_zero_or_pos (zeroRun ds 128) with hz | hz
      · set n := nonzeroRun ds 127 with hn
        have hnpos : 0 < n := by
          have := runs_progress ds hds
          rw [hz] at this
          simpa [← hn] using this
        have hnlen : n ≤ ds.length := nonzeroRun_le_length ds 127
        have hvslen : (ds.take n).length = n := by
          simp [List.length_take]; omega
        rw [rleXorBody_lit ds hds hz, ← hn]
        nth_rewrite 1 [← hvslen]
        exact LegalUnit.lit _ _ (by omega) (by rw [hvslen]; exact nonzeroRun_le_cap ds 127)
          (ih _ (by simp only [List.length_drop]; omega))
      · rw [rleXorBody_skip ds hz]
        exact LegalUnit.skip (zeroRun ds 128) _ (by omega) (zeroRun_le_cap ds 128)
          (ih _ (by
            simp only [List.length_drop]
            have := List.length_pos.mpr hds
            omega))

/-- The decoder loop never reads outside the declared input and preserves the
buffer length, for arbitrary input bytes. -/
theorem rleXorLoop_safe (stream : List Nat) :
    ∀ (k pos : Nat) (buf : List Nat) (i : Nat), stream.length - pos ≤ k →
      ∃ out, rleXorLoop stream pos buf i = some out ∧ out.length = buf.length := by
  intro k
  induction k with
  | zero =>
    intro pos buf i hk
    rw [rleXorLoop, dif_neg (by omega)]
    exact ⟨buf, rfl, rfl⟩
  | succ k ih =>
    intro pos buf i hk
    by_cases hpos : pos < stream.length
    · rw [rleXorLoop, dif_pos hpos]
      have hcmd : stream[pos]? = some stream[pos] := List.getElem?_eq_getElem hpos
      simp only [hcmd]
      by_cases h0 : stream[pos] = 0
      · rw [if_pos h0]
        exact ⟨buf, rfl, rfl⟩
      · rw [if_neg h0]
        by_cases hbit : stream[pos] &&& 0x80 ≠ 0
        · rw [if_pos hbit]
          exact ih (pos + 1) buf _ (by omega)
        · rw [if_neg hbit]
          obtain ⟨trip, htrip⟩ :=
            Option.isSome_iff_exists.mp (rleXorLits_isSome stream stream[pos] (pos + 1) buf i)
          obtain ⟨pos', buf', i'⟩ := trip
          have hle := rleXorLits_le htrip
          split
          · rename_i heq
            rw [htrip] at heq
            simp at heq
          · rename_i p2 b2 i2 heq
            rw [htrip] at heq
            simp only [Option.some.injEq, Prod.mk.injEq] at heq
            obtain ⟨rfl, rfl, rfl⟩ := heq
            obtain ⟨out, hout, hlen⟩ := ih pos' buf' i' (by omega)
            exact ⟨out, hout, by rw [hlen, hle.2]⟩
    · rw [rleXorLoop, dif_neg hpos]
      exact ⟨buf, rfl, rfl⟩

/-! ## Direct RLE codec (`compress_rle_direct`, generate_splash.c and
`apply_delta_rle_direct`, splash_anim_delta.c)

A run of at least 3 identical pixels becomes `0x80 | run` plus one 16-bit
value; otherwise a literal token `lit` (1..127) precedes `lit` raw values.
The literal scan refuses to absorb the start of an upcoming run of three. -/

/-- C loop `while (i + run < count && run < 127) { if (pixels[i+run] != val) break; run++ }`
(the extension of a run beyond its first pixel). -/
def eqRun (val : Nat) : List Nat → Nat → Nat
  | [], _ => 0
  | _, 0 => 0
  | p :: ps, cap + 1 => if p ≠ val then 0 else eqRun val ps cap + 1

/-- C literal scan `while (i + lit < count && lit < 127)`, breaking when three
equal pixels lie immediately ahead (the `i + lit + 2 < count` lookahead only
fires when three pixels remain). -/
def litRun : List Nat → Nat → Nat
  | [], _ => 0
  | _, 0 => 0
  | p :: q :: r :: tl, cap + 1 =>
    if p = q ∧ q = r then 0 else litRun (q :: r :: tl) cap + 1
  | _ :: ps, cap + 1 => litRun ps cap + 1

theorem eqRun_le_length (val : Nat) (l : List Nat) (cap : Nat) : eqRun val l cap ≤ l.length := by
  induction l generalizing cap with
  | nil => simp [eqRun]
  | cons p ps ih =>
    cases cap with
    | zero => simp [eqRun]
    | succ c =>
      simp only [eqRun]
      split
      · omega
      · have := ih c; simpa using Nat.succ_le_succ this

theorem eqRun_le_cap (val : Nat) (l : List Nat) (cap : Nat) : eqRun val l cap ≤ cap := by
  induction l generalizing cap with
  | nil => simp [eqRun]
  | cons p ps ih =>
    cases cap with
    | zero => simp [eqRun]
    | succ c =>
      simp only [eqRun]
      split
      · omega
      · have := ih c; omega

theorem eqRun_all (val : Nat) (l : List Nat) (cap : Nat) :
    ∀ x ∈ l.take (eqRun val l cap), x = val := by
  induction l generalizing cap with
  | nil => simp
  | cons p ps ih =>
    cases cap with
    | zero => simp [eqRun]
    | succ c =>
      simp only [eqRun]
      split
      · simp
      · rename_i hp
        intro x hx
        rw [List.take_succ_cons] at hx
        rcases List.mem_cons.mp hx with h | h
        · omega
        · exact ih c x h

theorem litRun_le_length (l : List Nat) (cap : Nat) : litRun l cap ≤ l.length := by
  induction l generalizing cap with
  | nil => simp [litRun]
  | cons p ps ih =>
    cases cap with
    | zero => simp [litRun]
    | succ c =>
      have hps := ih c
      rcases ps with _ | ⟨q, qs⟩
      · simp [litRun]
      · rcases qs with _ | ⟨r, rs⟩
        · simp only [litRun, List.length_cons]
          simp only [List.length_cons] at hps
          omega
        · simp only [litRun, List.length_cons]
          simp only [List.length_cons] at hps
          split
          · omega
          · omega

theorem litRun_le_cap (l : List Nat) (cap : Nat) : litRun l cap ≤ cap := by
  induction l generalizing cap with
  | nil => simp [litRun]
  | cons p ps ih =>
    cases cap with
    | zero => simp [litRun]
    | succ c =>
      have hps := ih c
      rcases ps with _ | ⟨q, qs⟩
      · simp [litRun]
      · rcases qs with _ | ⟨r, rs⟩
        · simp only [litRun]
          omega
        · simp only [litRun]
          split
          · omega
          · omega

/-- `compress_rle_direct` from generate_splash.c, recursively over the pixel
suffix. -/
def rleDirectBody : List Nat → List Nat
  | [] => [0x00]
  | val :: rest =>
    let run := 1 + eqRun val rest 126
    if 3 ≤ run then
      (0x80 ||| run) :: (bytes16 val ++ rleDirectBody ((val :: rest).drop run))
    else
      let lit0 := litRun (val :: rest) 127
      let lit := if lit0 = 0 then 1 else lit0
      lit :: (((val :: rest).take lit).flatMap bytes16 ++ rleDirectBody ((val :: rest).drop lit))
termination_by l => l.length
decreasing_by
  · simp only [List.length_drop, List.length_cons]
    omega
  · simp only [List.length_drop, List.length_cons]
    split
    · omega
    · omega

/-- `compress_rle_direct` from generate_splash.c. -/
def compress_rle_direct (pixels : List Nat) : List Nat := rleDirectBody pixels

/-- Literal loop of `apply_delta_rle_direct`: writes up to `count` literal
16-bit values read from the input. -/
def rleDirLits (delta : List Nat) : Nat → Nat → List Nat → Nat →
    Option (Nat × List Nat × Nat)
  | 0, pos, buf, pixelIdx => some (pos, buf, pixelIdx)
  | c + 1, pos, buf, pixelIdx =>
    if pixelIdx < buf.length then
      if pos + 1 ≥ delta.length then some (pos, buf, pixelIdx)
      else
        match delta[pos]?, delta[pos + 1]? with
        | some b0, some b1 =>
          rleDirLits delta c (pos + 2) (buf.set pixelIdx (le16 b0 b1)) (pixelIdx + 1)
        | _, _ => none
    else some (pos, buf, pixelIdx)

/-- Repeat loop of `apply_delta_rle_direct`:
`for (i = 0; i < count && pixel_idx < max_pixels; i++) frame_buffer[pixel_idx++] = val`. -/
def writeRepeat (val : Nat) : Nat → List Nat → Nat → List Nat × Nat
  | 0, buf, pixelIdx => (buf, pixelIdx)
  | c + 1, buf, pixelIdx =>
    if pixelIdx < buf.length then writeRepeat val c (buf.set pixelIdx val) (pixelIdx + 1)
    else (buf, pixelIdx)

theorem rleDirLits_le {delta : List Nat} :
    ∀ {c pos buf pixelIdx pos' buf' pixelIdx'},
      rleDirLits delta c pos buf pixelIdx = some (pos', buf', pixelIdx') →
      pos ≤ pos' ∧ buf'.length = buf.length := by
  intro c
  induction c with
  | zero =>
    intro pos buf pixelIdx pos' buf' pixelIdx' h
    simp only [rleDirLits, Option.some.injEq, Prod.mk.injEq] at h
    obtain ⟨rfl, rfl, rfl⟩ := h
    exact ⟨le_refl _, rfl⟩
  | succ c ih =>
    intro pos buf pixelIdx pos' buf' pixelIdx' h
    simp only [rleDirLits] at h
    split at h
    · split at h
      · simp only [Option.some.injEq, Prod.mk.injEq] at h
        obtain ⟨rfl, rfl, rfl⟩ := h
        exact ⟨le_refl _, rfl⟩
      · split at h
        · have := ih h
          simp only [List.length_set] at this
          omega
        · exact absurd h (by simp)
    · simp only [Option.some.injEq, Prod.mk.injEq] at h
      obtain ⟨rfl, rfl, rfl⟩ := h
      exact ⟨le_refl _, rfl⟩

/-- Main loop of `apply_delta_rle_direct` from splash_anim_delta.c. -/
def rleDirLoop (delta : List Nat) (pos : Nat) (buf : List Nat) (pixelIdx : Nat) :
    Option (List Nat) :=
  if hp : pos < delta.length then
    match delta[pos]? with
    | none => none
    | some cmd =>
      if cmd = 0 then some buf
      else if cmd &&& 0x80 ≠ 0 then
        -- repeat: one value, written (cmd & 0x7F) times
        if pos + 2 ≥ delta.length then some buf
        else
          match delta[pos + 1]?, delta[pos + 2]? with
          | some b0, some b1 =>
            let wp := writeRepeat (le16 b0 b1) (cmd &&& 0x7F) buf pixelIdx
            rleDirLoop delta (pos + 3) wp.1 wp.2
          | _, _ => none
      else
        match hl : rleDirLits delta cmd (pos + 1) buf pixelIdx with
        | none => none
        | some (pos', buf', pixelIdx') => rleDirLoop delta pos' buf' pixelIdx'
  else some buf
termination_by delta.length - pos
decreasing_by
  · omega
  · have := (rleDirLits_le hl).1
    omega

/-- `apply_delta_rle_direct` from splash_anim_delta.c. -/
def apply_delta_rle_direct (delta : List Nat) (buf : List Nat) : Option (List Nat) :=
  rleDirLoop delta 0 buf 0

/-! ## Round-trip proof for the direct RLE pair -/

/-- Sequential overwrite of buffer positions `i, i+1, ...` with `vs`. -/
def setSeq (buf : List Nat) (i : Nat) : List Nat → List Nat
  | [] => buf
  | v :: vs => setSeq (buf.set i v) (i + 1) vs

theorem setSeq_length (vs : List Nat) :
    ∀ (buf : List Nat) (i : Nat), (setSeq buf i vs).length = buf.length := by
  induction vs with
  | nil => intro buf i; simp [setSeq]
  | cons v vs ih => intro buf i; simp [setSeq, ih]

theorem setSeq_append (as bs : List Nat) :
    ∀ (buf : List Nat) (i : Nat),
      setSeq buf i (as ++ bs) = setSeq (setSeq buf i as) (i + as.length) bs := by
  induction as with
  | nil => intro buf i; simp [setSeq]
  | cons a as ih =>
    intro buf i
    simp only [List.cons_append, setSeq, List.length_cons, List.append_eq]
    rw [ih]
    congr 1
    omega

theorem setSeq_cons_shift (vs : List Nat) :
    ∀ (a : Nat) (l : List Nat) (i : Nat),
      setSeq (a :: l) (i + 1) vs = a :: setSeq l i vs := by
  induction vs with
  | nil => intro a l i; simp [setSeq]
  | cons v vs ih =>
    intro a l i
    simp only [setSeq, List.set_cons_succ]
    exact ih a _ (i + 1)

/-- Overwriting a whole same-length buffer with `vs` yields `vs`. -/
theorem setSeq_full (vs : List Nat) :
    ∀ (buf : List Nat), buf.length = vs.length → setSeq buf 0 vs = vs := by
  induction vs with
  | nil =>
    intro buf h
    have : buf = [] := List.eq_nil_of_length_eq_zero h
    simp [this, setSeq]
  | cons v vs ih =>
    intro buf h
    cases buf with
    | nil => simp at h
    | cons b bs =>
      simp only [setSeq, List.set_cons_zero, Nat.zero_add]
      rw [setSeq_cons_shift]
      simp only [List.length_cons] at h
      rw [ih bs (by omega)]

/-- The repeat loop is a sequential overwrite with copies of the value. -/
theorem writeRepeat_eq (val : Nat) :
    ∀ (c : Nat) (buf : List Nat) (i : Nat), i + c ≤ buf.length →
      writeRepeat val c buf i = (setSeq buf i (List.replicate c val), i + c) := by
  intro c
  induction c with
  | zero => intro buf i h; simp [writeRepeat, List.replicate, setSeq]
  | succ c ih =>
    intro buf i h
    rw [writeRepeat, if_pos (by omega)]
    rw [List.replicate_succ]
    simp only [setSeq]
    rw [ih _ (i + 1) (by simp [List.length_set]; omega)]
    simp only [Prod.mk.injEq]
    exact ⟨trivial, by omega⟩

theorem rleDirectBody_nil : rleDirectBody [] = [0x00] := by
  rw [rleDirectBody]

/-- Run-token shape of the direct RLE encoder. -/
theorem rleDirectBody_cons_run (val : Nat) (rest : List Nat)
    (hr : 3 ≤ 1 + eqRun val rest 126) :
    rleDirectBody (val :: rest) =
      (0x80 ||| (1 + eqRun val rest 126)) ::
        (bytes16 val ++ rleDirectBody ((val :: rest).drop (1 + eqRun val rest 126))) := by
  rw [rleDirectBody]
  simp only [if_pos hr]

/-- Literal-token shape of the direct RLE encoder. -/
theorem rleDirectBody_cons_lit (val : Nat) (rest : List Nat)
    (hr : ¬ 3 ≤ 1 + eqRun val rest 126) :
    rleDirectBody (val :: rest) =
      (if litRun (val :: rest) 127 = 0 then 1 else litRun (val :: rest) 127) ::
        (((val :: rest).take
            (if litRun (val :: rest) 127 = 0 then 1 else litRun (val :: rest) 127)).flatMap
              bytes16 ++
          rleDirectBody ((val :: rest).drop
            (if litRun (val :: rest) 127 = 0 then 1 else litRun (val :: rest) 127))) := by
  rw [rleDirectBody]
  simp only [if_neg hr]

/-- The direct-RLE literal loop overwrites the buffer with the serialized
values. -/
theorem rleDirLits_decodes (stream : List Nat) :
    ∀ (vs rest : List Nat) (pos : Nat) (buf : List Nat) (i : Nat),
      stream.drop pos = vs.flatMap bytes16 ++ rest →
      i + vs.length ≤ buf.length →
      (∀ v ∈ vs, v < 65536) →
      rleDirLits stream vs.length pos buf i =
        some (pos + 2 * vs.length, setSeq buf i vs, i + vs.length) := by
  intro vs
  induction vs with
  | nil =>
    intro rest pos buf i hdrop hlen hb
    simp [rleDirLits, setSeq]
  | cons v vs ih =>
    intro rest pos buf i hdrop hlen hb
    have hi : i < buf.length := by
      simp only [List.length_cons] at hlen; omega
    have hdrop' : stream.drop pos = lo8 v :: hi8 v :: (vs.flatMap bytes16 ++ rest) := by
      simpa [bytes16] using hdrop
    have hlen2 : pos + 1 < stream.length := by
      have h := congrArg List.length hdrop'
      simp only [List.length_drop, List.length_cons] at h
      omega
    have hget0 : stream[pos]? = some (lo8 v) := by
      have h := List.getElem?_drop stream pos 0
      rw [hdrop'] at h
      simpa using h.symm
    have hget1 : stream[pos + 1]? = some (hi8 v) := by
      have h := List.getElem?_drop stream pos 1
      rw [hdrop'] at h
      simpa using h.symm
    have hv : le16 (lo8 v) (hi8 v) = v := le16_bytes v (hb v (by simp))
    show rleDirLits stream (vs.length + 1) pos buf i = _
    rw [rleDirLits]
    simp only [if_pos hi, if_neg (show ¬ pos + 1 ≥ stream.length by omega), hget0, hget1, hv]
    have hdrop2 : stream.drop (pos + 2) = vs.flatMap bytes16 ++ rest := by
      have h := List.drop_drop 2 pos stream
      rw [hdrop'] at h
      simpa using h.symm
    rw [ih rest (pos + 2) _ (i + 1) hdrop2
      (by simp only [List.length_set]; simp only [List.length_cons] at hlen; omega)
      (fun x hx => hb x (by simp [hx]))]
    simp only [Option.some.injEq, Prod.mk.injEq, List.length_cons]
    refine ⟨by omega, ?_, by omega⟩
    rw [setSeq]

/-- The direct RLE decoder, run on `rleDirectBody l`, overwrites the buffer
with `l` starting at pixel `i`. -/
theorem rleDirLoop_decodes :
    ∀ (N : Nat) (l : List Nat), l.length ≤ N →
      ∀ (stream : List Nat) (pos : Nat) (buf : List Nat) (i : Nat),
        stream.drop pos = rleDirectBody l →
        i + l.length ≤ buf.length →
        (∀ v ∈ l, v < 65536) →
        rleDirLoop stream pos buf i = some (setSeq buf i l) := by
  intro N
  induction N with
  | zero =>
    intro l hN stream pos buf i hdrop hlen hb
    have hl : l = [] := List.eq_nil_of_length_eq_zero (by omega)
    subst hl
    rw [rleDirectBody_nil] at hdrop
    have hpos : pos < stream.length := by
      have h := congrArg List.length hdrop
      simp only [List.length_drop, List.length_cons, List.length_nil] at h
      omega
    have hget : stream[pos]? = some 0 := by
      have h := List.getElem?_drop stream pos 0
      rw [hdrop] at h
      simpa using h.symm
    rw [rleDirLoop, dif_pos hpos, hget]
    simp [setSeq]
  | succ N ih =>
    intro l hN stream pos buf i hdrop hlen hb
    rcases l with _ | ⟨val, rest⟩
    · rw [rleDirectBody_nil] at hdrop
      have hpos : pos < stream.length := by
        have h := congrArg List.length hdrop
        simp only [List.length_drop, List.length_cons, List.length_nil] at h
        omega
      have hget : stream[pos]? = some 0 := by
        have h := List.getElem?_drop stream pos 0
        rw [hdrop] at h
        simpa using h.symm
      rw [rleDirLoop, dif_pos hpos, hget]
      simp [setSeq]
    · have hvmem : val < 65536 := hb val (by simp)
      by_cases hr : 3 ≤ 1 + eqRun val rest 126
      · -- repeat token
        set run := 1 + eqRun val rest 126 with hrun
        have hrcap : run ≤ 127 := by
          have := eqRun_le_cap val rest 126
          omega
        have hrlen : run ≤ rest.length + 1 := by
          have := eqRun_le_length val rest 126
          omega
        rw [rleDirectBody_cons_run val rest hr, ← hrun] at hdrop
        have hdrop' : stream.drop pos =
            (0x80 ||| run) :: lo8 val :: hi8 val ::
              rleDirectBody ((val :: rest).drop run) := by
          simpa [bytes16] using hdrop
        have hbody := congrArg List.length hdrop'
        simp only [List.length_drop, List.length_cons] at hbody
        have hpos : pos < stream.length := by omega
        obtain ⟨hor, hand, hmask⟩ := skip_token_facts run (by omega)
        have hget : stream[pos]? = some (128 + run) := by
          have h := List.getElem?_drop stream pos 0
          rw [hdrop'] at h
          rw [hor] at h
          simpa using h.symm
        have hget1 : stream[pos + 1]? = some (lo8 val) := by
          have h := List.getElem?_drop stream pos 1
          rw [hdrop'] at h
          simpa using h.symm
        have hget2 : stream[pos + 2]? = some (hi8 val) := by
          have h := List.getElem?_drop stream pos 2
          rw [hdrop'] at h
          simpa using h.symm
        have hv : le16 (lo8 val) (hi8 val) = val := le16_bytes val hvmem
        rw [rleDirLoop, dif_pos hpos]
        simp only [hget, if_neg (show ¬ 128 + run = 0 by omega), if_pos hand,
          if_neg (show ¬ pos + 2 ≥ stream.length by omega), hget1, hget2, hv, hmask]
        have hwr := writeRepeat_eq val run buf i
          (by simp only [List.length_cons] at hlen; omega)
        rw [hwr]
        have htake : (val :: rest).take run = List.replicate run val := by
          rw [List.eq_replicate_iff]
          constructor
          · rw [List.length_take]
            simp only [List.length_cons]
            omega
          · intro b hbmem
            rcases run with _ | k
            · simp at hbmem
            · rw [List.take_succ_cons] at hbmem
              rcases List.mem_cons.mp hbmem with h | h
              · exact h
              · have hk : k = eqRun val rest 126 := by omega
                rw [hk] at h
                exact eqRun_all val rest 126 b h
        have hdrop3 : stream.drop (pos + 3) = rleDirectBody ((val :: rest).drop run) := by
          have h := List.drop_drop 3 pos stream
          rw [hdrop'] at h
          simpa using h.symm
        have hrec := ih ((val :: rest).drop run)
          (by simp only [List.length_drop, List.length_cons]
              simp only [List.length_cons] at hN
              omega)
          stream (pos + 3) (setSeq buf i (List.replicate run val)) (i + run) hdrop3
          (by rw [setSeq_length]
              simp only [List.length_drop, List.length_cons]
              simp only [List.length_cons] at hlen
              omega)
          (fun x hx => hb x (List.mem_of_mem_drop hx))
        rw [hrec]
        congr 1
        conv_rhs => rw [← List.take_append_drop run (val :: rest)]
        rw [setSeq_append, htake]
        congr 2
        rw [List.length_replicate]
      · -- literal token
        set lit0 := litRun (val :: rest) 127 with hlit0
        set lit := if lit0 = 0 then 1 else lit0 with hlit
        have hlitpos : 1 ≤ lit := by
          rw [hlit]
          split
          · omega
          · omega
        have hlitcap : lit ≤ 127 := by
          have := litRun_le_cap (val :: rest) 127
          rw [hlit]
          split
          · omega
          · omega
        have hlitlen : lit ≤ rest.length + 1 := by
          have := litRun_le_length (val :: rest) 127
          simp only [List.length_cons] at this
          rw [hlit]
          split
          · omega
          · omega
        rw [rleDirectBody_cons_lit val rest hr, ← hlit0, ← hlit] at hdrop
        have hbody := congrArg List.length hdrop
        simp only [List.length_drop, List.length_cons, List.length_append] at hbody
        have hpos : pos < stream.length := by omega
        have hget : stream[pos]? = some lit := by
          have h := List.getElem?_drop stream pos 0
          rw [hdrop] at h
          simpa using h.symm
        rw [rleDirLoop, dif_pos hpos]
        simp only [hget, if_neg (show ¬ lit = 0 by omega),
          if_neg (not_not_intro (lit_token_facts lit (by omega)))]
        have hdrop1 : stream.drop (pos + 1) =
            ((val :: rest).take lit).flatMap bytes16 ++
              rleDirectBody ((val :: rest).drop lit) := by
          have h := List.drop_drop 1 pos stream
          rw [hdrop] at h
          simpa using h.symm
        have hvslen : ((val :: rest).take lit).length = lit := by
          rw [List.length_take]
          simp only [List.length_cons]
          omega
        have hlits := rleDirLits_decodes stream ((val :: rest).take lit)
          (rleDirectBody ((val :: rest).drop lit)) (pos + 1) buf i hdrop1
          (by rw [hvslen]
              simp only [List.length_cons] at hlen
              omega)
          (fun x hx => hb x (List.mem_of_mem_take hx))
        rw [hvslen] at hlits
        have hrec := ih ((val :: rest).drop lit)
          (by simp only [List.length_drop, List.length_cons]
              simp only [List.length_cons] at hN
              omega)
          stream (pos + 1 + 2 * lit) (setSeq buf i ((val :: rest).take lit)) (i + lit)
          (by
            have h := List.drop_drop (2 * lit) (pos + 1) stream
            rw [hdrop1] at h
            rw [← h, List.drop_append_of_le_length]
            · rw [List.drop_eq_nil_of_le, List.nil_append]
              rw [flatMap_bytes16_length, hvslen]
            · rw [flatMap_bytes16_length, hvslen])
          (by rw [setSeq_length]
              simp only [List.length_drop, List.length_cons]
              simp only [List.length_cons] at hlen
              omega)
          (fun x hx => hb x (List.mem_of_mem_drop hx))
        split
        · rename_i heq
          rw [hlits] at heq
          simp at heq
        · rename_i pos' buf' pixelIdx' heq
          rw [hlits] at heq
          simp only [Option.some.injEq, Prod.mk.injEq] at heq
          obtain ⟨rfl, rfl, rfl⟩ := heq
          rw [hrec]
          congr 1
          conv_rhs => rw [← List.take_append_drop lit (val :: rest)]
          rw [setSeq_append, hvslen]

/-- Decoding `compress_rle_direct curr` into any same-size buffer reproduces
`curr`. -/
theorem rle_direct_roundtrip (curr prev : List Nat) (hl : prev.length = curr.length)
    (hc : ∀ x ∈ curr, x < 65536) :
    apply_delta_rle_direct (compress_rle_direct curr) prev = some curr := by
  unfold apply_delta_rle_direct compress_rle_direct
  rw [rleDirLoop_decodes curr.length curr (le_refl _) _ 0 prev 0 (by simp)
    (by omega) hc]
  rw [setSeq_full curr prev hl]

/-! ## Sparse XOR codec (`compress_sparse_xor`, generate_splash.c and
`apply_delta_sparse_xor`, splash_anim_delta.c) -/

/-- The changed positions and their XOR deltas, in the increasing index order
of the encoder's `for (i = 0; i < count; i++)` emission loop. -/
def changedPairs : List Nat → List (Nat × Nat)
  | [] => []
  | d :: ds =>
    (if d ≠ 0 then [(0, d)] else []) ++ (changedPairs ds).map (fun p => (p.1 + 1, p.2))

/-- The four bytes the encoder emits per changed pixel: 16-bit index then
16-bit XOR value, LSB first. -/
def pairBytes (p : Nat × Nat) : List Nat := [lo8 p.1, hi8 p.1, lo8 p.2, hi8 p.2]

/-- `compress_sparse_xor` from generate_splash.c: returns a zero-length result
for frames over 65535 pixels (16-bit index overflow); otherwise emits the
16-bit changed-pixel count, then the (index, XOR value) pairs. -/
def compress_sparse_xor (curr prev : List Nat) : List Nat :=
  if curr.length > 65535 then []
  else
    let ds := List.zipWith (fun c p => c ^^^ p) curr prev
    let ps := changedPairs ds
    lo8 ps.length :: hi8 ps.length :: ps.flatMap pairBytes

/-- Pair loop of `apply_delta_sparse_xor`:
`for (i = 0; i < changed && pos + 3 < delta_size; i++)`, XORing at the named
index when it is inside the frame. -/
def sparseLoop (delta : List Nat) : Nat → Nat → List Nat → Option (List Nat)
  | 0, _, buf => some buf
  | c + 1, pos, buf =>
    if pos + 3 < delta.length then
      match delta[pos]?, delta[pos + 1]?, delta[pos + 2]?, delta[pos + 3]? with
      | some b0, some b1, some b2, some b3 =>
        let idx := le16 b0 b1
        let xv := le16 b2 b3
        sparseLoop delta c (pos + 4)
          (if idx < buf.length then buf.set idx (buf.getD idx 0 ^^^ xv) else buf)
      | _, _, _, _ => none
    else some buf

/-- `apply_delta_sparse_xor` from splash_anim_delta.c. -/
def apply_delta_sparse_xor (delta : List Nat) (buf : List Nat) : Option (List Nat) :=
  if delta.length < 2 then some buf
  else
    match delta[0]?, delta[1]? with
    | some b0, some b1 => sparseLoop delta (le16 b0 b1) 2 buf
    | _, _ => none

/-- The decoder's cumulative effect: guarded XOR at each listed index. -/
def foldXorAt (buf : List Nat) : List (Nat × Nat) → List Nat
  | [] => buf
  | p :: ps =>
    foldXorAt (if p.1 < buf.length then buf.set p.1 (buf.getD p.1 0 ^^^ p.2) else buf) ps

theorem foldXorAt_shift (ps : List (Nat × Nat)) :
    ∀ (a : Nat) (l : List Nat),
      foldXorAt (a :: l) (ps.map (fun p => (p.1 + 1, p.2))) = a :: foldXorAt l ps := by
  induction ps with
  | nil => intro a l; simp [foldXorAt]
  | cons p ps ih =>
    intro a l
    obtain ⟨i, d⟩ := p
    simp only [List.map_cons, foldXorAt, List.length_cons]
    by_cases hi : i < l.length
    · rw [if_pos (by omega), if_pos hi]
      simp only [List.set_cons_succ, List.getD_cons_succ]
      exact ih a _
    · rw [if_neg (by omega), if_neg hi]
      exact ih a l

theorem changedPairs_fst_lt (ds : List Nat) :
    ∀ p ∈ changedPairs ds, p.1 < ds.length := by
  induction ds with
  | nil => simp [changedPairs]
  | cons d ds ih =>
    intro p hp
    simp only [changedPairs, List.mem_append, List.mem_map] at hp
    rcases hp with hp | ⟨q, hq, rfl⟩
    · split at hp
      · simp only [List.mem_singleton] at hp
        subst hp
        simp
      · simp at hp
    · have := ih q hq
      simp only [List.length_cons]
      omega

theorem changedPairs_snd_mem (ds : List Nat) :
    ∀ p ∈ changedPairs ds, p.2 ∈ ds := by
  induction ds with
  | nil => simp [changedPairs]
  | cons d ds ih =>
    intro p hp
    simp only [changedPairs, List.mem_append, List.mem_map] at hp
    rcases hp with hp | ⟨q, hq, rfl⟩
    · split at hp
      · simp only [List.mem_singleton] at hp
        subst hp
        simp
      · simp at hp
    · exact List.mem_cons_of_mem d (ih q hq)

theorem changedPairs_length_le (ds : List Nat) :
    (changedPairs ds).length ≤ ds.length := by
  induction ds with
  | nil => simp [changedPairs]
  | cons d ds ih =>
    simp only [changedPairs, List.length_append, List.length_map, List.length_cons]
    split
    · simp; omega
    · simp; omega

theorem foldXorAt_append (as bs : List (Nat × Nat)) :
    ∀ buf, foldXorAt buf (as ++ bs) = foldXorAt (foldXorAt buf as) bs := by
  induction as with
  | nil => intro buf; simp [foldXorAt]
  | cons a as ih => intro buf; simp only [List.cons_append, foldXorAt]; exact ih _

/-- Applying the changed-pair XORs to the previous frame recovers the current
frame. -/
theorem foldXorAt_zip (curr : List Nat) :
    ∀ (prev : List Nat), prev.length = curr.length →
      foldXorAt prev (changedPairs (List.zipWith (fun c p => c ^^^ p) curr prev)) = curr := by
  induction curr with
  | nil =>
    intro prev h
    have : prev = [] := List.eq_nil_of_length_eq_zero h
    simp [this, changedPairs, foldXorAt]
  | cons c cs ih =>
    intro prev h
    cases prev with
    | nil => simp at h
    | cons p ps =>
      simp only [List.length_cons] at h
      simp only [List.zipWith_cons_cons, changedPairs]
      by_cases hd : c ^^^ p ≠ 0
      · rw [if_pos hd, foldXorAt_append]
        simp only [foldXorAt, List.length_cons, List.set_cons_zero, List.getD_cons_zero,
          if_pos (Nat.succ_pos ps.length)]
        have hx : p ^^^ (c ^^^ p) = c := by
          rw [Nat.xor_comm c p, ← Nat.xor_assoc, Nat.xor_self, Nat.zero_xor]
        rw [hx, foldXorAt_shift]
        rw [ih ps (by omega)]
      · rw [if_neg hd]
        have hc : c = p := by
          have := Nat.xor_eq_zero.mp (by omega : c ^^^ p = 0)
          omega
        simp only [List.nil_append]
        rw [foldXorAt_shift, ih ps (by omega), hc]

theorem flatMap_pairBytes_length (ps : List (Nat × Nat)) :
    (ps.flatMap pairBytes).length = 4 * ps.length := by
  induction ps with
  | nil => simp
  | cons p ps ih => simp [pairBytes, ih]; omega

/-- The pair loop, fed exactly the serialized pairs, applies them all. -/
theorem sparseLoop_decodes (stream : List Nat) :
    ∀ (ps : List (Nat × Nat)) (pos : Nat) (buf : List Nat),
      stream.drop pos = ps.flatMap pairBytes →
      (∀ p ∈ ps, p.1 < 65536 ∧ p.2 < 65536) →
      sparseLoop stream ps.length pos buf = some (foldXorAt buf ps) := by
  intro ps
  induction ps with
  | nil => intro pos buf hdrop hb; simp [sparseLoop, foldXorAt]
  | cons p ps ih =>
    intro pos buf hdrop hb
    obtain ⟨i, d⟩ := p
    have hdrop' : stream.drop pos =
        lo8 i :: hi8 i :: lo8 d :: hi8 d :: ps.flatMap pairBytes := by
      simpa [pairBytes] using hdrop
    have hlen : pos + 3 < stream.length := by
      have h := congrArg List.length hdrop'
      simp only [List.length_drop, List.length_cons] at h
      omega
    have hget0 : stream[pos]? = some (lo8 i) := by
      have h := List.getElem?_drop stream pos 0
      rw [hdrop'] at h
      simpa using h.symm
    have hget1 : stream[pos + 1]? = some (hi8 i) := by
      have h := List.getElem?_drop stream pos 1
      rw [hdrop'] at h
      simpa using h.symm
    have hget2 : stream[pos + 2]? = some (lo8 d) := by
      have h := List.getElem?_drop stream pos 2
      rw [hdrop'] at h
      simpa using h.symm
    have hget3 : stream[pos + 3]? = some (hi8 d) := by
      have h := List.getElem?_drop stream pos 3
      rw [hdrop'] at h
      simpa using h.symm
    obtain ⟨hb1, hb2⟩ := hb (i, d) (by simp)
    have hvi : le16 (lo8 i) (hi8 i) = i := le16_bytes i hb1
    have hvd : le16 (lo8 d) (hi8 d) = d := le16_bytes d hb2
    show sparseLoop stream (ps.length + 1) pos buf = _
    rw [sparseLoop]
    simp only [if_pos hlen, hget0, hget1, hget2, hget3, hvi, hvd]
    have hdrop4 : stream.drop (pos + 4) = ps.flatMap pairBytes := by
      have h := List.drop_drop 4 pos stream
      rw [hdrop'] at h
      simpa using h.symm
    rw [ih (pos + 4) _ hdrop4 (fun q hq => hb q (by simp [hq]))]
    rfl

/-- Decoding the sparse unit into a buffer holding `prev` reproduces `curr`
(for frames within the 16-bit index limit). -/
theorem sparse_roundtrip (curr prev : List Nat) (hl : prev.length = curr.length)
    (hcount : curr.length ≤ 65535)
    (hc : ∀ x ∈ curr, x < 65536) (hp : ∀ x ∈ prev, x < 65536) :
    apply_delta_sparse_xor (compress_sparse_xor curr prev) prev = some curr := by
  have hds : (List.zipWith (fun c p => c ^^^ p) curr prev).length = curr.length := by
    rw [List.length_zipWith]; omega
  set ds := List.zipWith (fun c p => c ^^^ p) curr prev with hdsdef
  set ps := changedPairs ds with hpsdef
  have hpslen : ps.length ≤ 65535 := by
    have h := changedPairs_length_le ds
    rw [← hpsdef] at h
    omega
  have henc : compress_sparse_xor curr prev =
      lo8 ps.length :: hi8 ps.length :: ps.flatMap pairBytes := by
    rw [compress_sparse_xor, if_neg (by omega)]
  rw [henc, apply_delta_sparse_xor]
  rw [if_neg (by simp)]
  have hg0 : (lo8 ps.length :: hi8 ps.length :: ps.flatMap pairBytes)[0]? =
      some (lo8 ps.length) := by simp
  have hg1 : (lo8 ps.length :: hi8 ps.length :: ps.flatMap pairBytes)[1]? =
      some (hi8 ps.length) := by simp
  simp only [hg0, hg1, le16_bytes ps.length (by omega)]
  have hbounds : ∀ p ∈ ps, p.1 < 65536 ∧ p.2 < 65536 := by
    intro p hpmem
    constructor
    · have := changedPairs_fst_lt ds p hpmem
      omega
    · have hmem := changedPairs_snd_mem ds p hpmem
      exact mem_zipWith_xor_lt hc hp p.2 hmem
  rw [sparseLoop_decodes _ ps 2 prev (by simp) hbounds]
  rw [hpsdef, hdsdef, foldXorAt_zip curr prev hl]

/-! ## Raw codec (`compress_raw_direct`, generate_splash.c and
`apply_delta_raw`, splash_anim_delta.c) -/

/-- `compress_raw_direct`: every pixel as two bytes, LSB first, no framing. -/
def compress_raw_direct (pixels : List Nat) : List Nat := pixels.flatMap bytes16

/-- `apply_delta_raw` from splash_anim_delta.c: reinterpret the unit as pixel
values, up to the buffer capacity; the buffer tail beyond the unit is kept. -/
def apply_delta_raw (raw : List Nat) (buf : List Nat) : List Nat :=
  let pixels := if raw.length / 2 > buf.length then buf.length else raw.length / 2
  (List.range pixels).map (fun i => le16 (raw.getD (i * 2) 0) (raw.getD (i * 2 + 1) 0)) ++
    buf.drop pixels

theorem flatMap_bytes16_getD (vs : List Nat) :
    ∀ i, i < vs.length →
      (vs.flatMap bytes16).getD (i * 2) 0 = lo8 (vs.getD i 0) ∧
      (vs.flatMap bytes16).getD (i * 2 + 1) 0 = hi8 (vs.getD i 0) := by
  induction vs with
  | nil => simp
  | cons v vs ih =>
    intro i hi
    cases i with
    | zero => simp [bytes16]
    | succ j =>
      have hj : j < vs.length := by simpa using hi
      have := ih j hj
      have harith : (j + 1) * 2 = j * 2 + 1 + 1 := by omega
      simp only [List.flatMap_cons, bytes16, List.cons_append, List.nil_append, harith,
        List.getD_cons_succ, List.getD_cons_zero]
      simpa using this

/-- Decoding the raw unit for `curr` into any same-size buffer reproduces
`curr`. -/
theorem raw_roundtrip (curr prev : List Nat) (hl : prev.length = curr.length)
    (hc : ∀ x ∈ curr, x < 65536) :
    apply_delta_raw (compress_raw_direct curr) prev = curr := by
  rw [apply_delta_raw, compress_raw_direct]
  have hlen : (curr.flatMap bytes16).length = 2 * curr.length := flatMap_bytes16_length curr
  have hdiv : (curr.flatMap bytes16).length / 2 = curr.length := by omega
  simp only [hdiv, hl, gt_iff_lt, lt_irrefl, if_false]
  rw [List.drop_eq_nil_of_le (by omega), List.append_nil]
  apply List.ext_getElem
  · simp
  · intro i h1 h2
    simp only [List.getElem_map, List.getElem_range]
    obtain ⟨hlo, hhi⟩ := flatMap_bytes16_getD curr i (by simpa using h1)
    rw [hlo, hhi]
    have hmem : curr.getD i 0 ∈ curr := by
      rw [List.getD_eq_getElem _ _ h2]
      exact List.getElem_mem h2
    rw [le16_bytes _ (hc _ hmem)]
    exact (List.getD_eq_getElem _ _ h2)

/-! ## Claim C1: round-trip of all four animation codecs -/

/-- A 256×256 frame of zeros: the smallest frame size on which the sparse
method is inapplicable. -/
def bigPrev : List Nat := List.replicate 65536 0

/-- The same frame with one changed pixel. -/
def bigCurr : List Nat := 1 :: List.replicate 65535 0

/-- C1, counterexample: for the sparse method and a frame pair of 65536 pixels
(e.g. a 256×256 animation), the encoder returns a zero-length unit and the
decoder therefore leaves the previous frame in place, so the round-trip fails.
The universal round-trip claim is false as stated. -/
theorem C1_sparse_roundtrip_fails_at_65536 :
    apply_delta_sparse_xor (compress_sparse_xor bigCurr bigPrev) bigPrev ≠ some bigCurr := by
  have hlen : bigCurr.length = 65536 := by
    rw [bigCurr, List.length_cons, List.length_replicate]
  have henc : compress_sparse_xor bigCurr bigPrev = [] := by
    rw [compress_sparse_xor, if_pos (by rw [hlen]; norm_num)]
  have hdec : apply_delta_sparse_xor [] bigPrev = some bigPrev := by
    rw [apply_delta_sparse_xor, if_pos (by simp)]
  rw [henc, hdec]
  intro h
  have heq : bigPrev = bigCurr := Option.some.inj h
  have h0 : bigPrev[0]? = bigCurr[0]? := by rw [heq]
  rw [show bigPrev[0]? = some 0 by rw [bigPrev, List.getElem?_replicate]; norm_num] at h0
  rw [show bigCurr[0]? = some 1 by rw [bigCurr, List.getElem?_cons_zero]] at h0
  simp at h0

/-- C1 (amended): for every frame pair of equal length over 16-bit pixels,
decoding the encoder's output starting from a buffer holding `prev`
reproduces `curr` pixel-for-pixel, for delta RLE XOR, direct RLE and raw
unconditionally, and for the sparse method whenever the frame has at most
65535 pixels (the method's applicability bound). -/
theorem C1_roundtrip_all_methods (curr prev : List Nat)
    (hl : prev.length = curr.length)
    (hc : ∀ x ∈ curr, x < 65536) (hp : ∀ x ∈ prev, x < 65536) :
    apply_delta_rle_xor (compress_rle_xor curr prev) prev = some curr ∧
    apply_delta_rle_direct (compress_rle_direct curr) prev = some curr ∧
    (curr.length ≤ 65535 →
      apply_delta_sparse_xor (compress_sparse_xor curr prev) prev = some curr) ∧
    apply_delta_raw (compress_raw_direct curr) prev = curr :=
  ⟨rle_xor_roundtrip curr prev hl hc hp,
   rle_direct_roundtrip curr prev hl hc,
   fun hcount => sparse_roundtrip curr prev hl hcount hc hp,
   raw_roundtrip curr prev hl hc⟩

/-- Witness for C1 on a concrete 7-pixel frame pair. -/
theorem C1_roundtrip_all_methods_witness :
    apply_delta_rle_xor (compress_rle_xor [1, 2, 2, 2, 2, 7, 0] [1, 0, 2, 2, 9, 7, 0])
        [1, 0, 2, 2, 9, 7, 0] = some [1, 2, 2, 2, 2, 7, 0] ∧
    apply_delta_rle_direct (compress_rle_direct [1, 2, 2, 2, 2, 7, 0])
        [1, 0, 2, 2, 9, 7, 0] = some [1, 2, 2, 2, 2, 7, 0] ∧
    apply_delta_sparse_xor (compress_sparse_xor [1, 2, 2, 2, 2, 7, 0] [1, 0, 2, 2, 9, 7, 0])
        [1, 0, 2, 2, 9, 7, 0] = some [1, 2, 2, 2, 2, 7, 0] ∧
    apply_delta_raw (compress_raw_direct [1, 2, 2, 2, 2, 7, 0])
        [1, 0, 2, 2, 9, 7, 0] = [1, 2, 2, 2, 2, 7, 0] := by
  have h := C1_roundtrip_all_methods [1, 2, 2, 2, 2, 7, 0] [1, 0, 2, 2, 9, 7, 0]
    (by decide) (by decide) (by decide)
  exact ⟨h.1, h.2.1, h.2.2.1 (by decide), h.2.2.2⟩

/-! ## Claim C4: token legality and decoder safety for delta RLE XOR -/

/-- C4: every unit the delta RLE XOR encoder emits is legal (skip runs in
1..128, literal runs in 1..127, trailing zero byte), and on arbitrary input
bytes the decoder never reads at or past the declared length (no `none`) and
never writes outside the `count`-pixel buffer (the length is preserved). -/
theorem C4_token_legality_and_decoder_safety :
    (∀ curr prev : List Nat, LegalUnit (compress_rle_xor curr prev)) ∧
    (∀ delta buf : List Nat, ∃ out,
      apply_delta_rle_xor delta buf = some out ∧ out.length = buf.length) := by
  constructor
  · intro curr prev
    exact legal_rleXorBody _ _ (le_refl _)
  · intro delta buf
    exact rleXorLoop_safe delta delta.length 0 buf 0 (by omega)

/-! ## Claim C5: sparse encoder guard and output format -/

/-- C5: for frames over 65535 pixels the sparse encoder returns the
zero-length "inapplicable" result; otherwise its output is exactly the 2-byte
changed-pixel count followed by 4 bytes per changed pixel. -/
theorem C5_sparse_guard_and_size (curr prev : List Nat) :
    (curr.length > 65535 → compress_sparse_xor curr prev = []) ∧
    (curr.length ≤ 65535 →
      (compress_sparse_xor curr prev).length =
        2 + 4 * (changedPairs (List.zipWith (fun c p => c ^^^ p) curr prev)).length) := by
  constructor
  · intro h
    rw [compress_sparse_xor, if_pos h]
  · intro h
    rw [compress_sparse_xor, if_neg (by omega)]
    simp only [List.length_cons, flatMap_pairBytes_length]
    omega

/-- Witness for C5: the 65536-pixel guard case and the size formula on a
2-pixel frame with one changed pixel. -/
theorem C5_sparse_guard_and_size_witness :
    compress_sparse_xor bigCurr bigPrev = [] ∧
    (compress_sparse_xor [1, 2] [1, 3]).length =
      2 + 4 * (changedPairs (List.zipWith (fun c p => c ^^^ p) [1, 2] [1, 3])).length := by
  constructor
  · exact (C5_sparse_guard_and_size bigCurr bigPrev).1
      (by rw [bigCurr, List.length_cons, List.length_replicate]; norm_num)
  · exact (C5_sparse_guard_and_size [1, 2] [1, 3]).2 (by decide)

/-! ## Palette + LZSS decoder of the framebuffer backend
(`decompress_palette_lzss`, splash_anim_delta.c)

Flag-byte driven: each of the 8 flag bits selects a literal index byte or a
two-byte back-reference into a 4096-byte sliding window; every produced index
expands through the palette, clamping indices at or past `num_colors` to
palette entry 0. -/

def LZSS_WINDOW_SIZE : Nat := 4096

def LZSS_MIN_MATCH : Nat := 3

/-- Palette expansion `pal[val < num_colors ? val : 0]`; an out-of-bounds
palette read is `none`. -/
def palLookup (pal : List Nat) (num : Nat) (val : Nat) : Option Nat :=
  pal[(if val < num then val else 0)]?

/-- Back-reference copy loop:
`for (i = 0; i < length && out_pos < pixel_count; i++)`, copying from the
window at `(window_pos - offset + 4096) % 4096` and re-entering the window. -/
def fbLzssCopy (pal : List Nat) (num pixelCount offset : Nat) :
    Nat → List Nat → Nat → List Nat → Option (List Nat × Nat × List Nat)
  | 0, window, winPos, out => some (window, winPos, out)
  | k + 1, window, winPos, out =>
    if out.length < pixelCount then
      let winIdx := (winPos + LZSS_WINDOW_SIZE - offset) % LZSS_WINDOW_SIZE
      let val := window.getD winIdx 0
      match palLookup pal num val with
      | some px =>
        fbLzssCopy pal num pixelCount offset k
          (window.set winPos val) ((winPos + 1) % LZSS_WINDOW_SIZE) (out ++ [px])
      | none => none
    else some (window, winPos, out)

/-- Inner loop over the 8 bits of one flag byte.  The first argument is the
number of bits left; `bit` is the current bit index. -/
def fbLzssBits (compressed pal : List Nat) (num pixelCount flag : Nat) :
    Nat → Nat → Nat → List Nat → Nat → List Nat →
    Option (Nat × List Nat × Nat × List Nat)
  | 0, _, inPos, window, winPos, out => some (inPos, window, winPos, out)
  | k + 1, bit, inPos, window, winPos, out =>
    if out.length < pixelCount then
      if inPos ≥ compressed.length then some (inPos, window, winPos, out)
      else if flag &&& (1 <<< bit) ≠ 0 then
        match compressed[inPos]? with
        | some val =>
          match palLookup pal num val with
          | some px =>
            fbLzssBits compressed pal num pixelCount flag k (bit + 1) (inPos + 1)
              (window.set winPos val) ((winPos + 1) % LZSS_WINDOW_SIZE) (out ++ [px])
          | none => none
        | none => none
      else
        if inPos + 1 ≥ compressed.length then some (inPos, window, winPos, out)
        else
          match compressed[inPos]?, compressed[inPos + 1]? with
          | some b1, some b2 =>
            let offset := b1 ||| ((b2 &&& 0xF0) <<< 4)
            let len := (b2 &&& 0x0F) + LZSS_MIN_MATCH
            match fbLzssCopy pal num pixelCount offset len window winPos out with
            | some (window', winPos', out') =>
              fbLzssBits compressed pal num pixelCount flag k (bit + 1) (inPos + 2)
                window' winPos' out'
            | none => none
          | _, _ => none
    else some (inPos, window, winPos, out)

theorem fbLzssBits_inPos_le (compressed pal : List Nat) (num pixelCount flag : Nat) :
    ∀ {k bit inPos window winPos out inPos' window' winPos' out'},
      fbLzssBits compressed pal num pixelCount flag k bit inPos window winPos out =
        some (inPos', window', winPos', out') →
      inPos ≤ inPos' := by
  intro k
  induction k with
  | zero =>
    intro bit inPos window winPos out inPos' window' winPos' out' h
    simp only [fbLzssBits, Option.some.injEq, Prod.mk.injEq] at h
    omega
  | succ k ih =>
    intro bit inPos window winPos out inPos' window' winPos' out' h
    simp only [fbLzssBits] at h
    split at h
    · split at h
      · simp only [Option.some.injEq, Prod.mk.injEq] at h
        omega
      · split at h
        · split at h
          · split at h
            · have := ih h
              omega
            · exact absurd h (by simp)
          · exact absurd h (by simp)
        · split at h
          · simp only [Option.some.injEq, Prod.mk.injEq] at h
            omega
          · split at h
            · split at h
              · have := ih h
                omega
              · exact absurd h (by simp)
            · exact absurd h (by simp)
    · simp only [Option.some.injEq, Prod.mk.injEq] at h
      omega

/-- Outer loop of the framebuffer `decompress_palette_lzss`:
`while (in_pos < comp_size && out_pos < pixel_count)` read a flag byte and
process its 8 bits. -/
def fbLzssLoop (compressed pal : List Nat) (num pixelCount : Nat)
    (inPos : Nat) (window : List Nat) (winPos : Nat) (out : List Nat) :
    Option (List Nat) :=
  if h : inPos < compressed.length ∧ out.length < pixelCount then
    match compressed[inPos]? with
    | none => none
    | some flag =>
      match hbits : fbLzssBits compressed pal num pixelCount flag 8 0 (inPos + 1)
          window winPos out with
      | some (inPos', window', winPos', out') =>
        fbLzssLoop compressed pal num pixelCount inPos' window' winPos' out'
      | none => none
  else some out
termination_by compressed.length - inPos
decreasing_by
  have := fbLzssBits_inPos_le compressed pal num pixelCount flag hbits
  omega

/-- `decompress_palette_lzss` from splash_anim_delta.c (framebuffer backend). -/
def decompress_palette_lzss (compressed pal : List Nat) (num pixelCount : Nat) :
    Option (List Nat) :=
  fbLzssLoop compressed pal num pixelCount 0 (List.replicate LZSS_WINDOW_SIZE 0) 0 []

/-- Every palette lookup yields either one of the first `num` palette entries
(when the index is in range) or palette entry 0 (the clamped fallback). -/
theorem palLookup_safe (pal : List Nat) (num val : Nat)
    (hpal : 0 < pal.length) (hnum : num ≤ pal.length) :
    ∃ px, palLookup pal num val = some px ∧
      (px ∈ pal.take num ∨ px = pal.getD 0 0) := by
  rw [palLookup]
  by_cases hv : val < num
  · rw [if_pos hv]
    have hlt : val < pal.length := by omega
    refine ⟨pal[val], List.getElem?_eq_getElem hlt, Or.inl ?_⟩
    rw [List.mem_take_iff_getElem]
    exact ⟨val, by simp only [min_def]; split <;> omega, rfl⟩
  · rw [if_neg hv]
    refine ⟨pal[0], List.getElem?_eq_getElem hpal, Or.inr ?_⟩
    rw [List.getD_eq_getElem pal 0 hpal]

theorem fbLzssCopy_safe (pal : List Nat) (num pixelCount offset : Nat)
    (hpal : 0 < pal.length) (hnum : num ≤ pal.length) :
    ∀ (k : Nat) (window : List Nat) (winPos : Nat) (out : List Nat),
      (∀ x ∈ out, x ∈ pal.take num ∨ x = pal.getD 0 0) →
      ∃ window' winPos' out',
        fbLzssCopy pal num pixelCount offset k window winPos out =
          some (window', winPos', out') ∧
          ∀ x ∈ out', x ∈ pal.take num ∨ x = pal.getD 0 0 := by
  intro k
  induction k with
  | zero =>
    intro window winPos out hout
    exact ⟨window, winPos, out, rfl, hout⟩
  | succ k ih =>
    intro window winPos out hout
    rw [fbLzssCopy]
    by_cases hfull : out.length < pixelCount
    · rw [if_pos hfull]
      obtain ⟨px, hpx, hpxmem⟩ := palLookup_safe pal num
        (window.getD ((winPos + LZSS_WINDOW_SIZE - offset) % LZSS_WINDOW_SIZE) 0) hpal hnum
      simp only [hpx]
      apply ih
      intro x hx
      rcases List.mem_append.mp hx with hx | hx
      · exact hout x hx
      · simp only [List.mem_singleton] at hx
        subst hx
        exact hpxmem
    · rw [if_neg hfull]
      exact ⟨window, winPos, out, rfl, hout⟩

theorem fbLzssBits_safe (compressed pal : List Nat) (num pixelCount flag : Nat)
    (hpal : 0 < pal.length) (hnum : num ≤ pal.length) :
    ∀ (k bit inPos : Nat) (window : List Nat) (winPos : Nat) (out : List Nat),
      (∀ x ∈ out, x ∈ pal.take num ∨ x = pal.getD 0 0) →
      ∃ inPos' window' winPos' out',
        fbLzssBits compressed pal num pixelCount flag k bit inPos window winPos out =
          some (inPos', window', winPos', out') ∧
          ∀ x ∈ out', x ∈ pal.take num ∨ x = pal.getD 0 0 := by
  intro k
  induction k with
  | zero =>
    intro bit inPos window winPos out hout
    exact ⟨inPos, window, winPos, out, rfl, hout⟩
  | succ k ih =>
    intro bit inPos window winPos out hout
    rw [fbLzssBits]
    by_cases hfull : out.length < pixelCount
    · rw [if_pos hfull]
      by_cases hin : inPos ≥ compressed.length
      · rw [if_pos hin]
        exact ⟨inPos, window, winPos, out, rfl, hout⟩
      · rw [if_neg hin]
        by_cases hflag : flag &&& (1 <<< bit) ≠ 0
        · rw [if_pos hflag]
          have hval : compressed[inPos]? = some compressed[inPos] :=
            List.getElem?_eq_getElem (by omega)
          simp only [hval]
          obtain ⟨px, hpx, hpxmem⟩ := palLookup_safe pal num compressed[inPos] hpal hnum
          simp only [hpx]
          apply ih
          intro x hx
          rcases List.mem_append.mp hx with hx | hx
          · exact hout x hx
          · simp only [List.mem_singleton] at hx
            subst hx
            exact hpxmem
        · rw [if_neg hflag]
          by_cases hin2 : inPos + 1 ≥ compressed.length
          · rw [if_pos hin2]
            exact ⟨inPos, window, winPos, out, rfl, hout⟩
          · rw [if_neg hin2]
            have hb1 : compressed[inPos]? = some compressed[inPos] :=
              List.getElem?_eq_getElem (by omega)
            have hb2 : compressed[inPos + 1]? = some compressed[inPos + 1] :=
              List.getElem?_eq_getElem (by omega)
            simp only [hb1, hb2]
            obtain ⟨window', winPos', out', hcopy, hout'⟩ :=
              fbLzssCopy_safe pal num pixelCount
                (compressed[inPos] ||| ((compressed[inPos + 1] &&& 0xF0) <<< 4))
                hpal hnum ((compressed[inPos + 1] &&& 0x0F) + LZSS_MIN_MATCH)
                window winPos out hout
            simp only [hcopy]
            exact ih (bit + 1) (inPos + 2) window' winPos' out' hout'
    · rw [if_neg hfull]
      exact ⟨inPos, window, winPos, out, rfl, hout⟩

/-- The framebuffer LZSS loop is total and only ever outputs palette entries. -/
theorem fbLzssLoop_safe (compressed pal : List Nat) (num pixelCount : Nat)
    (hpal : 0 < pal.length) (hnum : num ≤ pal.length) :
    ∀ (fuel inPos : Nat) (window : List Nat) (winPos : Nat) (out : List Nat),
      compressed.length - inPos ≤ fuel →
      (∀ x ∈ out, x ∈ pal.take num ∨ x = pal.getD 0 0) →
      ∃ out', fbLzssLoop compressed pal num pixelCount inPos window winPos out =
        some out' ∧ ∀ x ∈ out', x ∈ pal.take num ∨ x = pal.getD 0 0 := by
  intro fuel
  induction fuel with
  | zero =>
    intro inPos window winPos out hfuel hout
    rw [fbLzssLoop, dif_neg (by omega)]
    exact ⟨out, rfl, hout⟩
  | succ fuel ih =>
    intro inPos window winPos out hfuel hout
    rw [fbLzssLoop]
    by_cases hcond : inPos < compressed.length ∧ out.length < pixelCount
    · rw [dif_pos hcond]
      have hflag : compressed[inPos]? = some compressed[inPos] :=
        List.getElem?_eq_getElem (by omega)
      simp only [hflag]
      obtain ⟨inPos', window', winPos', out', hbits, hout'⟩ :=
        fbLzssBits_safe compressed pal num pixelCount compressed[inPos] hpal hnum
          8 0 (inPos + 1) window winPos out hout
      split
      · rename_i p w wp o heq
        rw [hbits] at heq
        simp only [Option.some.injEq, Prod.mk.injEq] at heq
        obtain ⟨rfl, rfl, rfl, rfl⟩ := heq
        have hmono := fbLzssBits_inPos_le compressed pal num pixelCount compressed[inPos] hbits
        exact ih inPos' window' winPos' out' (by omega) hout'
      · rename_i heq
        rw [hbits] at heq
        simp at heq
    · rw [dif_neg hcond]
      exact ⟨out, rfl, hout⟩

/-! ## Claim C10: palette clamping and totality of the framebuffer decoder -/

/-- C10: the framebuffer palette+LZSS decoder is total for arbitrary
compressed input, performs no out-of-bounds palette read, and every output
pixel is either one of the first `num` palette entries (in-range index) or
palette entry 0 (the clamp applied to any index at or past `num`). -/
theorem C10_fb_lzss_palette_clamp (compressed pal : List Nat) (num pixelCount : Nat)
    (hpal : 0 < pal.length) (hnum : num ≤ pal.length) :
    ∃ out, decompress_palette_lzss compressed pal num pixelCount = some out ∧
      ∀ x ∈ out, x ∈ pal.take num ∨ x = pal.getD 0 0 := by
  rw [decompress_palette_lzss]
  exact fbLzssLoop_safe compressed pal num pixelCount hpal hnum compressed.length 0
    _ 0 [] (by omega) (by simp)

/-- Witness for C10 on a concrete input whose literal indices all exceed the
palette size. -/
theorem C10_fb_lzss_palette_clamp_witness :
    ∃ out, decompress_palette_lzss [0xFF, 7, 8, 9, 1, 250, 3, 4, 0] [10, 20] 2 16 =
      some out ∧ ∀ x ∈ out, x ∈ [10, 20].take 2 ∨ x = [10, 20].getD 0 0 :=
  C10_fb_lzss_palette_clamp [0xFF, 7, 8, 9, 1, 250, 3, 4, 0] [10, 20] 2 16
    (by decide) (by decide)

/-! ## Palette + LZSS decoder of the DRM backend
(`decompress_palette_lzss`, splash_anim_drm.c)

This is NOT the flag-byte scheme: bytes below 0x80 are treated as literal
palette indices, 0x80..0xBF as a count of following literal index bytes, and
0xC0..0xFF as a run-length repeat of the previous output pixel. -/

/-- The 0x80..0xBF branch of the DRM decoder: copy the next `n` input bytes
as palette indices, skipping indices outside the palette. -/
def drmLzssLits (pal : List Nat) (paletteSize pixelCount : Nat) :
    Nat → List Nat → List Nat → List Nat × List Nat
  | 0, rest, out => (rest, out)
  | _ + 1, [], out => ([], out)
  | n + 1, idx :: rest', out =>
    if out.length < pixelCount then
      drmLzssLits pal paletteSize pixelCount n rest'
        (if idx < paletteSize then out ++ [pal.getD idx 0] else out)
    else (idx :: rest', out)

/-- The 0xC0..0xFF branch of the DRM decoder: repeat the previous output
pixel `n` times (palette entry 0 at position 0; the write is skipped when the
palette is empty, modelled as appending 0 for the uninitialized slot the C
code leaves behind while still advancing `pos`). -/
def drmLzssRle (pal : List Nat) (paletteSize pixelCount : Nat) :
    Nat → List Nat → List Nat
  | 0, out => out
  | n + 1, out =>
    if out.length < pixelCount then
      drmLzssRle pal paletteSize pixelCount n
        (out ++ [if 0 < out.length then out.getD (out.length - 1) 0
                 else if 0 < paletteSize then pal.getD 0 0
                 else 0])
    else out

theorem drmLzssLits_rest_le (pal : List Nat) (paletteSize pixelCount : Nat) :
    ∀ (n : Nat) (rest out : List Nat),
      (drmLzssLits pal paletteSize pixelCount n rest out).1.length ≤ rest.length := by
  intro n
  induction n with
  | zero => intro rest out; simp [drmLzssLits]
  | succ n ih =>
    intro rest out
    match rest with
    | [] => simp [drmLzssLits]
    | idx :: rest' =>
      rw [drmLzssLits]
      split
      · have := ih rest' (if idx < paletteSize then out ++ [pal.getD idx 0] else out)
        simp only [List.length_cons]
        omega
      · exact le_refl _

/-- Outer loop of the DRM `decompress_palette_lzss`, over the remaining
input bytes. -/
def drmLzssLoop (pal : List Nat) (paletteSize pixelCount : Nat) :
    List Nat → List Nat → List Nat
  | [], out => out
  | b :: rest, out =>
    if out.length < pixelCount then
      if b < 0x80 then
        drmLzssLoop pal paletteSize pixelCount rest
          (if b < paletteSize then out ++ [pal.getD b 0] else out)
      else if b ≤ 0xBF then
        let lr := drmLzssLits pal paletteSize pixelCount ((b - 0x80) + 2) rest out
        drmLzssLoop pal paletteSize pixelCount lr.1 lr.2
      else
        match rest with
        | [] => out
        | n :: rest' =>
          drmLzssLoop pal paletteSize pixelCount rest'
            (drmLzssRle pal paletteSize pixelCount n out)
    else out
termination_by l _ => l.length
decreasing_by
  · simp only [List.length_cons]; omega
  · have := drmLzssLits_rest_le pal paletteSize pixelCount ((b - 0x80) + 2) rest out
    simp only [List.length_cons]
    omega
  · simp only [List.length_cons]; omega

/-- `decompress_palette_lzss` from splash_anim_drm.c (DRM backend). -/
def drm_decompress_palette_lzss (compressed pal : List Nat)
    (paletteSize pixelCount : Nat) : List Nat :=
  drmLzssLoop pal paletteSize pixelCount compressed []

/-! ## Claim C2: the two backends' palette decoders are not the same function -/

/-- One decoding step of the framebuffer loop, for use on concrete inputs. -/
theorem fbLzssLoop_step (compressed pal : List Nat) (num pixelCount : Nat)
    (inPos : Nat) (window : List Nat) (winPos : Nat) (out : List Nat)
    (flag inPos' : Nat) (window' : List Nat) (winPos' : Nat) (out' : List Nat)
    (hcond : inPos < compressed.length ∧ out.length < pixelCount)
    (hflag : compressed[inPos]? = some flag)
    (hbits : fbLzssBits compressed pal num pixelCount flag 8 0 (inPos + 1)
      window winPos out = some (inPos', window', winPos', out')) :
    fbLzssLoop compressed pal num pixelCount inPos window winPos out =
      fbLzssLoop compressed pal num pixelCount inPos' window' winPos' out' := by
  rw [fbLzssLoop, dif_pos hcond]
  simp only [hflag]
  split
  · rename_i p w wp o heq
    rw [hbits] at heq
    simp only [Option.some.injEq, Prod.mk.injEq] at heq
    obtain ⟨rfl, rfl, rfl, rfl⟩ := heq
    rfl
  · rename_i heq
    rw [hbits] at heq
    simp at heq

theorem fbLzssLoop_stop (compressed pal : List Nat) (num pixelCount : Nat)
    (inPos : Nat) (window : List Nat) (winPos : Nat) (out : List Nat)
    (hcond : ¬ (inPos < compressed.length ∧ out.length < pixelCount)) :
    fbLzssLoop compressed pal num pixelCount inPos window winPos out = some out := by
  rw [fbLzssLoop, dif_neg hcond]

/-- C2 is false of the code: on the two-byte input `[0x01, 0x00]` with the
two-entry palette `[5, 9]`, the framebuffer decoder (flag byte `0x01`: one
literal index `0`, then a truncated back-reference) outputs `[5]`, while the
DRM decoder (two literal indices `1` and `0`) outputs `[9, 5]`.  The two
`decompress_palette_lzss` implementations compute different functions. -/
theorem C2_decoders_diverge :
    decompress_palette_lzss [0x01, 0x00] [5, 9] 2 4 = some [5] ∧
    drm_decompress_palette_lzss [0x01, 0x00] [5, 9] 2 4 = [9, 5] ∧
    (5 : Nat) ≠ 9 := by
  refine ⟨?_, ?_, by norm_num⟩
  · rw [decompress_palette_lzss]
    rw [fbLzssLoop_step [0x01, 0x00] [5, 9] 2 4 0 (List.replicate LZSS_WINDOW_SIZE 0) 0 []
      0x01 2 ((List.replicate LZSS_WINDOW_SIZE 0).set 0 0) (1 % LZSS_WINDOW_SIZE) [5]
      (by norm_num) rfl rfl]
    rw [fbLzssLoop_stop]
    norm_num
  · rw [drm_decompress_palette_lzss]
    rw [drmLzssLoop]
    norm_num
    rw [drmLzssLoop]
    norm_num
    rw [drmLzssLoop]

/-! ## Claim C3: the COMPRESS_AUTO method selector (generate_splash.c main) -/

/-- Per-frame encoded sizes of frames 1..N-1 for one candidate method
(`0 = RLE_XOR`, `2 = SPARSE`, `1 = RLE_DIRECT`), as computed by the trial
loop. -/
def autoFrameSizes (mid : Nat) (f0 : List Nat) (rest : List (List Nat)) : List Nat :=
  (List.zip rest (f0 :: rest)).map (fun fp =>
    if mid = 0 then (compress_rle_xor fp.1 fp.2).length
    else if mid = 2 then (compress_sparse_xor fp.1 fp.2).length
    else (compress_rle_direct fp.1).length)

/-- The inner frame loop with its early break:
`if (size == 0 && f > 0) { method_valid = 0; total = SIZE_MAX; break; }`.
`none` models the invalidated method (total = SIZE_MAX). -/
def totalWithBreak : List Nat → Nat → Option Nat
  | [], acc => some acc
  | s :: sizes, acc => if s = 0 then none else totalWithBreak sizes (acc + s)

/-- Total trial size of one candidate: frame 0 always raw, then the per-frame
sizes, invalid when some frame encodes to zero length. -/
def methodTotal (mid : Nat) (f0 : List Nat) (rest : List (List Nat)) : Option Nat :=
  totalWithBreak (autoFrameSizes mid f0 rest) (compress_raw_direct f0).length

/-- `total < best_size` with `none` playing SIZE_MAX. -/
def optLt : Option Nat → Option Nat → Bool
  | some a, some b => a < b
  | some _, none => true
  | none, _ => false

/-- `total ≤ total'` with `none` as infinity (for the claim-side statement). -/
def optLe : Option Nat → Option Nat → Bool
  | _, none => true
  | none, some _ => false
  | some a, some b => a ≤ b

/-- The COMPRESS_AUTO selection loop from generate_splash.c `main`:
candidates tried in the order RLE_XOR (0), SPARSE (2), RLE_DIRECT (1)
(`method_ids[] = {0, 2, 1}`), starting from `best_method = COMPRESS_RLE_XOR`,
`best_size = SIZE_MAX`, updating on strict `total < best_size`. -/
def autoSelectMethod (f0 : List Nat) (rest : List (List Nat)) : Nat :=
  let step : Nat × Option Nat → Nat × Option Nat → Nat × Option Nat :=
    fun best cand => if optLt cand.2 best.2 then cand else best
  (step (step (step (0, none) (0, methodTotal 0 f0 rest))
    (2, methodTotal 2 f0 rest)) (1, methodTotal 1 f0 rest)).1

/-- The claim's description of the selector: among the candidates
RLE_XOR, SPARSE, RLE_DIRECT (in that order) with valid totals, pick the one
with the smallest total, ties going to the earliest candidate (delta RLE
first). -/
def selectorSpec (f0 : List Nat) (rest : List (List Nat)) : Nat :=
  let t0 := methodTotal 0 f0 rest
  let t2 := methodTotal 2 f0 rest
  let t1 := methodTotal 1 f0 rest
  if t0.isSome ∧ optLe t0 t2 = true ∧ optLe t0 t1 = true then 0
  else if t2.isSome ∧ optLe t2 t1 = true then 2
  else if t1.isSome then 1
  else 0

/-- An encoded delta RLE XOR unit is never empty (it at least carries the
terminator), so the RLE_XOR candidate is never invalidated. -/
theorem rleXorBody_ne_nil : ∀ (N : Nat) (ds : List Nat), ds.length ≤ N →
    rleXorBody ds ≠ [] := by
  intro N
  induction N with
  | zero =>
    intro ds h
    have hds : ds = [] := List.eq_nil_of_length_eq_zero (by omega)
    subst hds
    rw [rleXorBody_nil]
    simp
  | succ N ih =>
    intro ds hN
    rcases eq_or_ne ds [] with hds | hds
    · subst hds
      rw [rleXorBody_nil]
      simp
    · rw [rleXorBody, dif_neg hds]
      intro hcontra
      rcases List.append_eq_nil.mp hcontra with ⟨_, h2⟩
      rcases List.append_eq_nil.mp h2 with ⟨_, h3⟩
      have hp := runs_progress ds hds
      have h1 := zeroRun_le_length ds 128
      have h2' := nonzeroRun_le_length (ds.drop (zeroRun ds 128)) 127
      simp only [List.length_drop] at h2'
      have h3' : 0 < ds.length := List.length_pos.mpr hds
      refine ih _ ?_ h3
      simp only [List.length_drop]
      omega

theorem totalWithBreak_isSome (sizes : List Nat) :
    ∀ acc, (∀ s ∈ sizes, s ≠ 0) → ∃ t, totalWithBreak sizes acc = some t := by
  induction sizes with
  | nil => intro acc h; exact ⟨acc, rfl⟩
  | cons s sizes ih =>
    intro acc h
    rw [totalWithBreak, if_neg (h s (by simp))]
    exact ih (acc + s) (fun x hx => h x (by simp [hx]))

/-- C3: the auto selector equals the claim's min-with-first-tie rule; the
delta RLE XOR candidate always has a valid (non-excluded) total. -/
theorem C3_auto_selection (f0 : List Nat) (rest : List (List Nat)) :
    autoSelectMethod f0 rest = selectorSpec f0 rest ∧
    (methodTotal 0 f0 rest).isSome := by
  constructor
  · simp only [autoSelectMethod, selectorSpec]
    generalize methodTotal 0 f0 rest = a
    generalize methodTotal 2 f0 rest = b
    generalize methodTotal 1 f0 rest = c
    rcases a with _ | av <;> rcases b with _ | bv <;> rcases c with _ | cv <;>
      simp [optLt, optLe] <;>
      split_ifs <;> first | omega | (simp_all; try omega)
  · rw [methodTotal]
    obtain ⟨t, ht⟩ := totalWithBreak_isSome (autoFrameSizes 0 f0 rest)
      (compress_raw_direct f0).length (by
        intro s hs
        rw [autoFrameSizes] at hs
        simp only [List.mem_map] at hs
        obtain ⟨fp, _, rfl⟩ := hs
        intro hlen
        norm_num [compress_rle_xor] at hlen
        exact rleXorBody_ne_nil _ _ (le_refl _) hlen)
    rw [ht]
    rfl

/-! ## Claim C6: interrupted-sleep handling in the two backends -/

/-- Model of one `nanosleep` call: the optional interrupt arrives `t` ms into
the sleep; if that is before the requested duration the call sleeps `t` and
reports `req - t` remaining, otherwise it completes.  Returns
(time slept, remaining time). -/
def nanosleepModel (req : Nat) (intr : Option Nat) : Nat × Nat :=
  match intr with
  | none => (req, 0)
  | some t => if t < req then (t, req - t) else (req, 0)

/-- `sleep_ms` from splash_anim_delta.c:
`while (nanosleep(&req, &rem) != 0) req = rem;` — total time slept across
retries, given the arrival offsets of successive interrupts. -/
def fb_sleep_ms (ms : Nat) : List Nat → Nat
  | [] => (nanosleepModel ms none).1
  | t :: rest =>
    let sr := nanosleepModel ms (some t)
    if sr.2 = 0 then sr.1 else sr.1 + fb_sleep_ms sr.2 rest

/-- `sleep_ms` from splash_anim_drm.c: a single `nanosleep(&req, NULL)`,
no retry on interruption. -/
def drm_sleep_ms (ms : Nat) (intrs : List Nat) : Nat :=
  (nanosleepModel ms intrs.head?).1

/-- C6, counterexample: a 10 ms sleep interrupted after 3 ms sleeps only 3 ms
in the DRM backend (no resumption), while the framebuffer backend resumes and
completes the full 10 ms.  The claim is false for the DRM backend. -/
theorem C6_drm_sleep_not_resumed :
    drm_sleep_ms 10 [3] = 3 ∧ fb_sleep_ms 10 [3] = 10 ∧ drm_sleep_ms 10 [3] ≠ 10 := by
  refine ⟨rfl, rfl, by decide⟩

/-- C6 (amended): the framebuffer backend's `sleep_ms` always accumulates the
full requested duration, resuming with the reported remainder after every
interruption; the DRM backend performs a single non-resuming sleep. -/
theorem C6_fb_sleep_resumes (ms : Nat) (intrs : List Nat) :
    fb_sleep_ms ms intrs = ms := by
  induction intrs generalizing ms with
  | nil => rfl
  | cons t rest ih =>
    rw [fb_sleep_ms]
    by_cases h : t < ms
    · simp only [nanosleepModel, if_pos h]
      rw [if_neg (by omega : ¬ ms - t = 0), ih (ms - t)]
      omega
    · simp [nanosleepModel, h]

/-! ## Claim C7: hold-last-frame behaviour with looping disabled -/

/-- What one playback tick did to the pixel buffer. -/
inductive PBEvent where
  | decoded (k : Nat)
  | reloaded0
  | held
  | stopped
  deriving DecidableEq

/-- Playback state of the animation main loop shared by splash_anim_delta.c
and splash_anim_drm.c: frame cursor, pixel buffer, whether the engine is in
the hold-last-frame sub-state (`while (!terminate_requested) sleep_ms(1000)`),
and whether it has exited the loop. -/
structure PBState where
  idx : Nat
  buf : List Nat
  holding : Bool
  halted : Bool
  deriving DecidableEq

/-- One tick of the animation loop body: blit the current buffer, check the
termination flag, advance the cursor; past the last frame either wrap to
frame 0 (loop enabled, reloading the raw reference via `load_frame_0`) or
enter the hold sub-state, which only sleeps until termination.  `reload0` is
the buffer `load_frame_0` produces; `decodeStep k` is `apply_delta` on frame
`k`'s unit. -/
def pbStep (N : Nat) (loopFlag : Bool) (reload0 : List Nat)
    (decodeStep : Nat → List Nat → List Nat) (s : PBState) (term : Bool) :
    PBState × PBEvent :=
  if s.halted then (s, PBEvent.stopped)
  else if s.holding then
    if term then ({ s with halted := true }, PBEvent.stopped)
    else (s, PBEvent.held)
  else if term then ({ s with halted := true }, PBEvent.stopped)
  else
    let idx1 := s.idx + 1
    if idx1 ≥ N then
      if loopFlag then ({ s with idx := 0, buf := reload0 }, PBEvent.reloaded0)
      else ({ s with holding := true }, PBEvent.held)
    else ({ s with idx := idx1, buf := decodeStep idx1 s.buf }, PBEvent.decoded idx1)

/-- Run the loop over a sequence of termination-flag samples, collecting the
per-tick events. -/
def pbRun (N : Nat) (loopFlag : Bool) (reload0 : List Nat)
    (decodeStep : Nat → List Nat → List Nat) :
    PBState → List Bool → PBState × List PBEvent
  | s, [] => (s, [])
  | s, t :: ts =>
    let se := pbStep N loopFlag reload0 decodeStep s t
    let rest := pbRun N loopFlag reload0 decodeStep se.1 ts
    (rest.1, se.2 :: rest.2)

/-- C7: with looping disabled, stepping past the last frame enters the hold
sub-state without touching the buffer, and from the hold sub-state the buffer
is never mutated again and no tick ever decodes a frame or reloads frame 0 —
every subsequent tick only holds (sleeps) or stops on termination. -/
theorem C7_hold_last_frame (N : Nat) (reload0 : List Nat)
    (decodeStep : Nat → List Nat → List Nat) :
    (∀ s : PBState, s.holding = false → s.halted = false → s.idx + 1 ≥ N →
      pbStep N false reload0 decodeStep s false =
        ({ s with holding := true }, PBEvent.held)) ∧
    (∀ (s : PBState) (terms : List Bool), s.holding = true →
      (pbRun N false reload0 decodeStep s terms).1.buf = s.buf ∧
      ∀ e ∈ (pbRun N false reload0 decodeStep s terms).2,
        e = PBEvent.held ∨ e = PBEvent.stopped) := by
  constructor
  · intro s h1 h2 h3
    simp [pbStep, h1, h2, h3]
  · intro s terms
    induction terms generalizing s with
    | nil =>
      intro hs
      exact ⟨rfl, by simp [pbRun]⟩
    | cons t ts ih =>
      intro hs
      have hstep : ∀ se, se = pbStep N false reload0 decodeStep s t →
          se.1.buf = s.buf ∧ se.1.holding = true ∧
          (se.2 = PBEvent.held ∨ se.2 = PBEvent.stopped) := by
        intro se hse
        rw [pbStep] at hse
        by_cases hh : s.halted
        · rw [if_pos hh] at hse
          subst hse
          exact ⟨rfl, hs, Or.inr rfl⟩
        · rw [if_neg hh, if_pos hs] at hse
          by_cases ht : t
          · rw [if_pos ht] at hse
            subst hse
            exact ⟨rfl, hs, Or.inr rfl⟩
          · rw [if_neg ht] at hse
            subst hse
            exact ⟨rfl, hs, Or.inl rfl⟩
      obtain ⟨hbuf, hhold, hev⟩ := hstep _ rfl
      rw [pbRun]
      obtain ⟨ihbuf, ihev⟩ := ih (pbStep N false reload0 decodeStep s t).1 hhold
      refine ⟨by rw [ihbuf, hbuf], ?_⟩
      intro e he
      simp only [List.mem_cons] at he
      rcases he with he | he
      · subst he
        exact hev
      · exact ihev e he

/-- Witness for C7: a 5-frame animation; entering and remaining in the hold
sub-state with the buffer untouched. -/
theorem C7_hold_last_frame_witness :
    pbStep 5 false [1] (fun _ b => b) ⟨4, [9], false, false⟩ false =
      ({ idx := 4, buf := [9], holding := true, halted := false }, PBEvent.held) ∧
    (pbRun 5 false [1] (fun _ b => b) ⟨5, [9], true, false⟩ [false, false, true]).1.buf =
      [9] := by
  have h := C7_hold_last_frame 5 [1] (fun _ b => b)
  exact ⟨h.1 ⟨4, [9], false, false⟩ rfl rfl (by decide),
    (h.2 ⟨5, [9], true, false⟩ [false, false, true] rfl).1⟩

/-! ## Claim C8: SSE2 RGB565 → 32bpp conversion vs the scalar formula -/

/-- One 32-bit lane of blit_to_fb_32bpp_sse2: the mask/shift/or sequence the
SSE2 body applies to each 16-bit pixel zero-extended into a 32-bit lane
(`_mm_slli_epi32` shifts each lane modulo 2^32):
`r = (p & 0xF800) << (5+3)`, `g = (p & 0x07E0) << (3+2)`,
`b = (p & 0x1F) << 3`, combined `r | g | b`. -/
def sse2LaneRgb (p : Nat) : Nat :=
  (((p &&& 0xF800) <<< (5 + 3)) % 2 ^ 32) |||
  (((p &&& 0x07E0) <<< (3 + 2)) % 2 ^ 32) |||
  (((p &&& 0x1F) <<< 3) % 2 ^ 32)

/-- Scalar tail loop of blit_to_fb_32bpp_sse2:
`uint32_t r = (pix >> 11) & 0x1F, g = (pix >> 5) & 0x3F, b = pix & 0x1F;`
`(r << 19) | (g << 10) | (b << 3)`. -/
def scalarTailRgb (p : Nat) : Nat :=
  (((p >>> 11) &&& 0x1F) <<< 19) ||| (((p >>> 5) &&& 0x3F) <<< 10) |||
  ((p &&& 0x1F) <<< 3)

/-- One 32-bit lane of blit_to_fb_32bpp_sse2_bgr: red is shifted right
(`_mm_srli_epi32(r, 11 - 3)`), green as in the RGB path, blue into
bits 16..23 (`_mm_slli_epi32(b, 16 + 3)`). -/
def sse2LaneBgr (p : Nat) : Nat :=
  ((p &&& 0xF800) >>> (11 - 3)) |||
  (((p &&& 0x07E0) <<< (3 + 2)) % 2 ^ 32) |||
  (((p &&& 0x1F) <<< (16 + 3)) % 2 ^ 32)

/-- Scalar tail of the BGR path: `(b << 19) | (g << 10) | (r << 3)`. -/
def scalarTailBgr (p : Nat) : Nat :=
  ((p &&& 0x1F) <<< 19) ||| (((p >>> 5) &&& 0x3F) <<< 10) |||
  (((p >>> 11) &&& 0x1F) <<< 3)

/-- blit_to_fb_32bpp_sse2: blocks of 8 pixels through the vector lane
operation while at least 8 remain (`i + 7 < count`), then the scalar loop on
the remainder. -/
def blit_to_fb_32bpp_sse2 (src : List Nat) : List Nat :=
  if 8 ≤ src.length then
    (src.take 8).map sse2LaneRgb ++ blit_to_fb_32bpp_sse2 (src.drop 8)
  else src.map scalarTailRgb
termination_by src.length
decreasing_by simp_all [List.length_drop]; omega

/-- blit_to_fb_32bpp_sse2_bgr, same block structure with the BGR lane and
tail conversions. -/
def blit_to_fb_32bpp_sse2_bgr (src : List Nat) : List Nat :=
  if 8 ≤ src.length then
    (src.take 8).map sse2LaneBgr ++ blit_to_fb_32bpp_sse2_bgr (src.drop 8)
  else src.map scalarTailBgr
termination_by src.length
decreasing_by simp_all [List.length_drop]; omega

/-- The reference per-pixel conversion of the claim: expand each 5/6-bit
field to 8 bits by a left shift and place it at the channel offset:
`((r5 << 3) << r_off) | ((g6 << 2) << g_off) | ((b5 << 3) << b_off)`. -/
def expand_to_surface32 (rOff gOff bOff p : Nat) : Nat :=
  ((((p >>> 11) &&& 0x1F) <<< 3) <<< rOff) |||
  ((((p >>> 5) &&& 0x3F) <<< 2) <<< gOff) |||
  (((p &&& 0x1F) <<< 3) <<< bOff)

theorem shiftLeft_shiftLeft_add (x a b : Nat) : (x <<< a) <<< b = x <<< (a + b) := by
  simp [Nat.shiftLeft_eq, Nat.pow_add, Nat.mul_assoc]

theorem and_shifted_mask (p m k : Nat) : p &&& (m <<< k) = ((p >>> k) &&& m) <<< k := by
  apply Nat.eq_of_testBit_eq
  intro i
  simp only [Nat.testBit_and, Nat.testBit_shiftLeft, Nat.testBit_shiftRight]
  by_cases h : k ≤ i
  · have hik : k + (i - k) = i := by omega
    simp [ge_iff_le, h, hik, Bool.and_assoc]
  · simp [ge_iff_le, h]

theorem and_mask_shiftLeft_lt (p m k w : Nat) (h : (m + 1) * 2 ^ k ≤ 2 ^ w) :
    (p &&& m) <<< k < 2 ^ w := by
  have h1 : p &&& m ≤ m := Nat.and_le_right
  rw [Nat.shiftLeft_eq]
  calc (p &&& m) * 2 ^ k ≤ m * 2 ^ k := Nat.mul_le_mul_right _ h1
    _ < (m + 1) * 2 ^ k := by
        have hpos : 0 < 2 ^ k := Nat.pos_pow_of_pos _ (by omega)
        rw [Nat.add_mul, Nat.one_mul]
        omega
    _ ≤ 2 ^ w := h

theorem sse2LaneRgb_eq (p : Nat) : sse2LaneRgb p = expand_to_surface32 16 8 0 p := by
  have hr : p &&& 0xF800 = ((p >>> 11) &&& 0x1F) <<< 11 := by
    have h := and_shifted_mask p 0x1F 11
    norm_num [Nat.shiftLeft_eq] at h
    simpa [Nat.shiftLeft_eq] using h
  have hg : p &&& 0x07E0 = ((p >>> 5) &&& 0x3F) <<< 5 := by
    have h := and_shifted_mask p 0x3F 5
    norm_num [Nat.shiftLeft_eq] at h
    simpa [Nat.shiftLeft_eq] using h
  rw [sse2LaneRgb, expand_to_surface32, hr, hg,
    shiftLeft_shiftLeft_add, shiftLeft_shiftLeft_add,
    shiftLeft_shiftLeft_add, shiftLeft_shiftLeft_add,
    shiftLeft_shiftLeft_add,
    Nat.mod_eq_of_lt (and_mask_shiftLeft_lt _ _ _ 32 (by norm_num)),
    Nat.mod_eq_of_lt (and_mask_shiftLeft_lt _ _ _ 32 (by norm_num)),
    Nat.mod_eq_of_lt (and_mask_shiftLeft_lt _ _ _ 32 (by norm_num))]

theorem scalarTailRgb_eq (p : Nat) : scalarTailRgb p = expand_to_surface32 16 8 0 p := by
  rw [scalarTailRgb, expand_to_surface32,
    shiftLeft_shiftLeft_add, shiftLeft_shiftLeft_add, shiftLeft_shiftLeft_add]

theorem sse2LaneBgr_eq (p : Nat) : sse2LaneBgr p = expand_to_surface32 0 8 16 p := by
  have hr : p &&& 0xF800 = ((p >>> 11) &&& 0x1F) <<< 11 := by
    have h := and_shifted_mask p 0x1F 11
    norm_num [Nat.shiftLeft_eq] at h
    simpa [Nat.shiftLeft_eq] using h
  have hg : p &&& 0x07E0 = ((p >>> 5) &&& 0x3F) <<< 5 := by
    have h := and_shifted_mask p 0x3F 5
    norm_num [Nat.shiftLeft_eq] at h
    simpa [Nat.shiftLeft_eq] using h
  have hshr : (((p >>> 11) &&& 0x1F) <<< 11) >>> 8 = ((p >>> 11) &&& 0x1F) <<< 3 := by
    rw [Nat.shiftLeft_eq, Nat.shiftLeft_eq, Nat.shiftRight_eq_div_pow]
    rw [show (2 : Nat) ^ 11 = 2 ^ 3 * 2 ^ 8 by norm_num, ← Nat.mul_assoc]
    exact Nat.mul_div_cancel _ (by norm_num)
  rw [sse2LaneBgr, expand_to_surface32, hr, hg,
    show (11 - 3 : Nat) = 8 from rfl, hshr,
    shiftLeft_shiftLeft_add, shiftLeft_shiftLeft_add, shiftLeft_shiftLeft_add,
    shiftLeft_shiftLeft_add,
    Nat.mod_eq_of_lt (and_mask_shiftLeft_lt _ _ _ 32 (by norm_num)),
    Nat.mod_eq_of_lt (and_mask_shiftLeft_lt _ _ _ 32 (by norm_num))]

theorem or3_rev (x y z : Nat) : x ||| y ||| z = z ||| y ||| x := by
  rw [Nat.or_comm, Nat.or_comm x y, ← Nat.or_assoc]

theorem scalarTailBgr_eq (p : Nat) : scalarTailBgr p = expand_to_surface32 0 8 16 p := by
  rw [scalarTailBgr, expand_to_surface32,
    shiftLeft_shiftLeft_add, shiftLeft_shiftLeft_add, shiftLeft_shiftLeft_add]
  exact or3_rev _ _ _

theorem blit_sse2_eq_map (src : List Nat) :
    blit_to_fb_32bpp_sse2 src = src.map (expand_to_surface32 16 8 0) := by
  have hlane : sse2LaneRgb = expand_to_surface32 16 8 0 := funext sse2LaneRgb_eq
  have htail : scalarTailRgb = expand_to_surface32 16 8 0 := funext scalarTailRgb_eq
  have key : ∀ N l, l.length ≤ N →
      blit_to_fb_32bpp_sse2 l = l.map (expand_to_surface32 16 8 0) := by
    intro N
    induction N with
    | zero =>
      intro l hl
      rw [blit_to_fb_32bpp_sse2]
      rw [if_neg (by omega), htail]
    | succ n ih =>
      intro l hl
      rw [blit_to_fb_32bpp_sse2]
      by_cases h8 : 8 ≤ l.length
      · rw [if_pos h8, hlane, ih (l.drop 8) (by rw [List.length_drop]; omega)]
        rw [← List.map_append, List.take_append_drop]
      · rw [if_neg h8, htail]
  exact key src.length src (le_refl _)

theorem blit_sse2_bgr_eq_map (src : List Nat) :
    blit_to_fb_32bpp_sse2_bgr src = src.map (expand_to_surface32 0 8 16) := by
  have hlane : sse2LaneBgr = expand_to_surface32 0 8 16 := funext sse2LaneBgr_eq
  have htail : scalarTailBgr = expand_to_surface32 0 8 16 := funext scalarTailBgr_eq
  have key : ∀ N l, l.length ≤ N →
      blit_to_fb_32bpp_sse2_bgr l = l.map (expand_to_surface32 0 8 16) := by
    intro N
    induction N with
    | zero =>
      intro l hl
      rw [blit_to_fb_32bpp_sse2_bgr]
      rw [if_neg (by omega), htail]
    | succ n ih =>
      intro l hl
      rw [blit_to_fb_32bpp_sse2_bgr]
      by_cases h8 : 8 ≤ l.length
      · rw [if_pos h8, hlane, ih (l.drop 8) (by rw [List.length_drop]; omega)]
        rw [← List.map_append, List.take_append_drop]
      · rw [if_neg h8, htail]
  exact key src.length src (le_refl _)

/-- C8: both SSE2 blit routines compute, for every source pixel list of any
length, exactly the per-pixel map of the reference conversion
`((r5<<3)<<r_off) | ((g6<<2)<<g_off) | ((b5<<3)<<b_off)` at channel offsets
(16, 8, 0) for the RGB path and (0, 8, 16) for the BGR path: the vector lane
operations and the scalar tail agree with the formula on every pixel value. -/
theorem C8_sse2_matches_scalar_reference (src : List Nat) :
    blit_to_fb_32bpp_sse2 src = src.map (expand_to_surface32 16 8 0) ∧
    blit_to_fb_32bpp_sse2_bgr src = src.map (expand_to_surface32 0 8 16) :=
  ⟨blit_sse2_eq_map src, blit_sse2_bgr_eq_map src⟩

/-! ## Claim C9: the palette builder -/

/-- The linear palette search of build_palette
(`for j in 0..num_colors: if palette[j] == color`): index of the first
occurrence of `color`, if present. -/
def palIndexOf (color : Nat) : List Nat → Option Nat
  | [] => none
  | c :: rest =>
    if c = color then some 0 else (palIndexOf color rest).map (fun j => j + 1)

/-- build_palette from generate_splash.c: for each pixel, search the palette
built so far; on a hit emit the found index, on a miss append the colour while
fewer than 256 entries exist (emitting the new index), otherwise emit the
fallback index 255.  Returns (palette, per-pixel indices). -/
def build_palette_loop : List Nat → List Nat → List Nat × List Nat
  | [], pal => (pal, [])
  | color :: rest, pal =>
    match palIndexOf color pal with
    | some j =>
      let r := build_palette_loop rest pal
      (r.1, j :: r.2)
    | none =>
      if pal.length < 256 then
        let r := build_palette_loop rest (pal ++ [color])
        (r.1, pal.length :: r.2)
      else
        let r := build_palette_loop rest pal
        (r.1, 255 :: r.2)

def build_palette (pixels : List Nat) : List Nat × List Nat :=
  build_palette_loop pixels []

/-- Specification-side list of the distinct colours in first-seen order,
uncapped. -/
def firstSeenAux (acc : List Nat) : List Nat → List Nat
  | [] => acc
  | c :: rest =>
    match palIndexOf c acc with
    | some _ => firstSeenAux acc rest
    | none => firstSeenAux (acc ++ [c]) rest

def firstSeen (pixels : List Nat) : List Nat := firstSeenAux [] pixels

/-- Specification-side index of one pixel given its first-seen rank: ranks
below 256 are kept, later colours degrade to the last palette slot 255. -/
def clampRank : Option Nat → Nat
  | some j => if j < 256 then j else 255
  | none => 255

theorem palIndexOf_lt_length (color : Nat) (l : List Nat) (j : Nat)
    (h : palIndexOf color l = some j) : j < l.length := by
  induction l generalizing j with
  | nil => simp [palIndexOf] at h
  | cons c rest ih =>
    rw [palIndexOf] at h
    by_cases hc : c = color
    · rw [if_pos hc] at h
      simp only [Option.some.injEq] at h
      subst h
      simp only [List.length_cons]
      omega
    · rw [if_neg hc] at h
      cases hp : palIndexOf color rest with
      | none => rw [hp] at h; simp at h
      | some k =>
        rw [hp] at h
        simp only [Option.map_some', Option.some.injEq] at h
        have hk := ih k hp
        simp only [List.length_cons]
        omega

theorem palIndexOf_append_some (color : Nat) (l l2 : List Nat) (j : Nat)
    (h : palIndexOf color l = some j) : palIndexOf color (l ++ l2) = some j := by
  induction l generalizing j with
  | nil => simp [palIndexOf] at h
  | cons c rest ih =>
    rw [palIndexOf] at h
    rw [List.cons_append, palIndexOf]
    by_cases hc : c = color
    · rw [if_pos hc] at h ⊢
      exact h
    · rw [if_neg hc] at h ⊢
      cases hp : palIndexOf color rest with
      | none => rw [hp] at h; simp at h
      | some k => rw [hp] at h; rw [ih k hp]; exact h

theorem palIndexOf_append_none (color : Nat) (l l2 : List Nat)
    (h : palIndexOf color l = none) :
    palIndexOf color (l ++ l2) =
      (palIndexOf color l2).map (fun j => j + l.length) := by
  induction l with
  | nil =>
    simp only [List.nil_append, List.length_nil]
    cases palIndexOf color l2 <;> simp
  | cons c rest ih =>
    rw [palIndexOf] at h
    by_cases hc : c = color
    · rw [if_pos hc] at h; simp at h
    · rw [if_neg hc] at h
      have hrest : palIndexOf color rest = none := by
        cases hp : palIndexOf color rest with
        | none => rfl
        | some k => rw [hp] at h; simp at h
      rw [List.cons_append, palIndexOf, if_neg hc, ih hrest]
      cases hq : palIndexOf color l2 with
      | none => simp
      | some k =>
        simp only [Option.map_some', Option.some.injEq, List.length_cons]
        omega

theorem palIndexOf_take (color : Nat) (l : List Nat) (n : Nat) :
    palIndexOf color (l.take n) =
      match palIndexOf color l with
      | some j => if j < n then some j else none
      | none => none := by
  induction l generalizing n with
  | nil => cases n <;> simp [palIndexOf]
  | cons c rest ih =>
    cases n with
    | zero =>
      rw [List.take_zero]
      cases hp : palIndexOf color (c :: rest) with
      | none => rfl
      | some j => simp [palIndexOf]
    | succ m =>
      rw [List.take_succ_cons, palIndexOf, palIndexOf]
      by_cases hc : c = color
      · rw [if_pos hc, if_pos hc]
        simp
      · rw [if_neg hc, if_neg hc, ih m]
        cases hp : palIndexOf color rest with
        | none => simp [hp]
        | some k =>
          simp only [Option.map_some']
          by_cases hk : k < m
          · rw [if_pos hk, if_pos (by omega : k + 1 < m + 1)]
            simp
          · rw [if_neg hk, if_neg (by omega : ¬ k + 1 < m + 1)]
            simp

theorem firstSeenAux_extends (pixels : List Nat) :
    ∀ acc : List Nat, ∃ ext, firstSeenAux acc pixels = acc ++ ext := by
  induction pixels with
  | nil => intro acc; exact ⟨[], by simp [firstSeenAux]⟩
  | cons c rest ih =>
    intro acc
    rw [firstSeenAux]
    cases hp : palIndexOf c acc with
    | some j =>
      simp only []
      exact ih acc
    | none =>
      simp only []
      obtain ⟨ext, hext⟩ := ih (acc ++ [c])
      exact ⟨c :: ext, by rw [hext]; simp⟩

theorem build_palette_loop_spec (pixels : List Nat) :
    ∀ fsAcc : List Nat,
      (build_palette_loop pixels (fsAcc.take 256)).1 =
        (firstSeenAux fsAcc pixels).take 256 ∧
      (build_palette_loop pixels (fsAcc.take 256)).2 =
        pixels.map (fun c => clampRank (palIndexOf c (firstSeenAux fsAcc pixels))) := by
  induction pixels with
  | nil => intro fsAcc; exact ⟨rfl, rfl⟩
  | cons c rest ih =>
    intro fsAcc
    cases hfs : palIndexOf c fsAcc with
    | some j =>
      have hfinal : palIndexOf c (firstSeenAux fsAcc rest) = some j := by
        obtain ⟨ext, hext⟩ := firstSeenAux_extends rest fsAcc
        rw [hext]
        exact palIndexOf_append_some c fsAcc ext j hfs
      by_cases hj : j < 256
      · have hpal : palIndexOf c (fsAcc.take 256) = some j := by
          rw [palIndexOf_take, hfs]
          exact if_pos hj
        simp only [build_palette_loop, hpal, firstSeenAux, hfs, List.map_cons]
        obtain ⟨ih1, ih2⟩ := ih fsAcc
        refine ⟨ih1, ?_⟩
        rw [ih2, hfinal]
        simp [clampRank, hj]
      · have hpal : palIndexOf c (fsAcc.take 256) = none := by
          rw [palIndexOf_take, hfs]
          exact if_neg hj
        have hlenfs : 256 < fsAcc.length := by
          have := palIndexOf_lt_length c fsAcc j hfs
          omega
        have hlen : ¬ (fsAcc.take 256).length < 256 := by
          rw [List.length_take]
          omega
        simp only [build_palette_loop, hpal, if_neg hlen, firstSeenAux, hfs,
          List.map_cons]
        obtain ⟨ih1, ih2⟩ := ih fsAcc
        refine ⟨ih1, ?_⟩
        rw [ih2, hfinal]
        simp [clampRank, hj]
    | none =>
      have hpal : palIndexOf c (fsAcc.take 256) = none := by
        rw [palIndexOf_take, hfs]
      have hnew : palIndexOf c (fsAcc ++ [c]) = some fsAcc.length := by
        rw [palIndexOf_append_none c fsAcc [c] hfs]
        simp [palIndexOf]
      have hfinal : palIndexOf c (firstSeenAux (fsAcc ++ [c]) rest) =
          some fsAcc.length := by
        obtain ⟨ext, hext⟩ := firstSeenAux_extends rest (fsAcc ++ [c])
        rw [hext]
        exact palIndexOf_append_some c (fsAcc ++ [c]) ext fsAcc.length hnew
      by_cases hlenfs : fsAcc.length < 256
      · have htake : fsAcc.take 256 = fsAcc := List.take_of_length_le (by omega)
        have hlen : (fsAcc.take 256).length < 256 := by rw [htake]; exact hlenfs
        have htake2 : (fsAcc ++ [c]).take 256 = fsAcc ++ [c] :=
          List.take_of_length_le (by simp; omega)
        simp only [build_palette_loop, hpal, if_pos hlen, firstSeenAux, hfs,
          List.map_cons]
        obtain ⟨ih1, ih2⟩ := ih (fsAcc ++ [c])
        rw [htake2] at ih1 ih2
        rw [htake]
        refine ⟨ih1, ?_⟩
        rw [ih2, hfinal]
        simp only [clampRank, if_pos hlenfs, htake]
      · have hlen : ¬ (fsAcc.take 256).length < 256 := by
          rw [List.length_take]
          omega
        have htake2 : (fsAcc ++ [c]).take 256 = fsAcc.take 256 :=
          List.take_append_of_le_length (by omega)
        simp only [build_palette_loop, hpal, if_neg hlen, firstSeenAux, hfs,
          List.map_cons]
        obtain ⟨ih1, ih2⟩ := ih (fsAcc ++ [c])
        rw [htake2] at ih1 ih2
        refine ⟨ih1, ?_⟩
        rw [ih2, hfinal]
        simp only [clampRank, if_neg hlenfs]

set_option maxRecDepth 8000 in
/-- C9: the palette builder assigns indices in first-seen order (the palette
is the first-seen distinct-colour list capped at 256 entries; each pixel's
index is its colour's first-seen rank when that rank is below 256 and the
fallback 255 otherwise), emits exactly one index per pixel, and an image with
300 distinct colours yields a palette of exactly 256 entries. -/
theorem C9_palette_builder (pixels : List Nat) :
    (build_palette pixels).1 = (firstSeen pixels).take 256 ∧
    (build_palette pixels).2 =
      pixels.map (fun c => clampRank (palIndexOf c (firstSeen pixels))) ∧
    (build_palette pixels).2.length = pixels.length ∧
    (build_palette (List.range 300)).1.length = 256 := by
  obtain ⟨h1, h2⟩ := build_palette_loop_spec pixels []
  have h1' : (build_palette pixels).1 = (firstSeen pixels).take 256 := h1
  have h2' : (build_palette pixels).2 =
      pixels.map (fun c => clampRank (palIndexOf c (firstSeen pixels))) := h2
  refine ⟨h1', h2', ?_, ?_⟩
  · rw [h2', List.length_map]
  · rfl

end XBootsplash
